import Mathlib

/-!
# hyperpixel-init: GPIO function-select initialisation

A shallow embedding of `src/hyperpixel_init/main.c`.

* The function-select bank behind `rawaddr + 0x200000` is a list of words
  (`List Nat`); word `i` of the list is `fsel[i]` of the C code.
* `int` values are `Int`; the two `uint8_t` locals and the `uint32_t`
  operands are obtained by the explicit conversions `to_uint8` and
  `to_uint32` (reduction modulo `2^8` and `2^32`).
* C integer division and remainder truncate towards zero (`Int.tdiv`,
  `Int.tmod`).
* Behaviour that C leaves undefined (a shift count of 32 or more, an access
  outside the bank) is the result `none`.
* An `int` left shift is the product with the power of two; its conversion
  to `uint32_t` wraps modulo `2^32`, as the two's-complement target does.
  For function codes 0..7 and shifts up to 27 no wrap-around occurs.
-/

namespace HyperpixelInit

/-! ## Integer conversions -/

/-- Conversion of an `int` to `uint8_t`: reduction modulo `2^8`. -/
def to_uint8 (x : Int) : Nat := (x % 256).toNat

/-- Conversion of an `int` to `uint32_t`: reduction modulo `2^32`. -/
def to_uint32 (x : Int) : Nat := (x % 4294967296).toNat

/-! ## `set_function` (main.c, lines 10-17) -/

/-- Line 12: `uint8_t regnum = pin_num / 10;`. -/
def regnum (pin_num : Int) : Nat := to_uint8 (Int.tdiv pin_num 10)

/-- Line 14: `uint8_t pin_shift = (pin_num % 10) * 3;`. -/
def pin_shift (pin_num : Int) : Nat := to_uint8 (Int.tmod pin_num 10 * 3)

/-- Lines 10-17. The read-modify-write
`fsel[regnum] = (fsel[regnum] & ~(0x7 << pin_shift)) | (function << pin_shift);`
on the bank `fsel`. The two shifts are `int` shifts (multiplication by
`2 ^ pin_shift`), `~` is the `int` complement, and both `int` operands are
converted to `uint32_t` before they meet the `uint32_t` word. -/
def set_function (fsel : List Nat) (pin_num function : Int) : Option (List Nat) :=
  if 32 ≤ pin_shift pin_num then none
  else
    match fsel[regnum pin_num]? with
    | none => none
    | some old =>
      some (fsel.set (regnum pin_num)
        ((old &&& to_uint32 (~~~ (0x7 * 2 ^ pin_shift pin_num)))
          ||| to_uint32 (function * 2 ^ pin_shift pin_num)))

/-- Line 25: `#define kBCM2708Pinmux_ALT2 6`. -/
def kBCM2708Pinmux_ALT2 : Int := 6

/-! ## `main` (main.c, lines 28-48) -/

/-- The actions of `main` that are visible from outside the process, one
constructor per call site. -/
inductive Event where
  /-- Line 30: `printf("arm physical is at 0x%x\n", arm_phys)`. -/
  | printf_arm_phys (arm_phys : Nat)
  /-- Line 31: `open("/dev/mem", O_RDWR)`. -/
  | open_dev_mem
  /-- Line 33: `perror("unable to open /dev/mem")`. -/
  | perror_open
  /-- Line 36: `mmap(NULL, 16 * 1024 * 1024, ..., fd, arm_phys)`. -/
  | mmap (length : Nat) (fd : Int) (offset : Nat)
  /-- Line 38: `perror("unable to mmap")`. -/
  | perror_mmap
  /-- Line 41: `close(fd)`. -/
  | close (fd : Int)
  /-- Lines 44-46: a call `set_function(pin_num, function)`. -/
  | set_function (pin_num function : Int)
  deriving DecidableEq, Repr

/-- What `main` gets from its environment: the peripheral address returned
by `bcm_host_get_peripheral_address`, the value returned by `open`, whether
`mmap` returns something other than `MAP_FAILED`, and the contents of the
function-select bank of the hardware. -/
structure World where
  arm_phys : Nat
  fd : Int
  mmap_ok : Bool
  fsel : List Nat
  deriving Repr

/-- The state threaded through the pin loops: the bank and the actions
performed so far, oldest first. -/
structure Machine where
  fsel : List Nat
  trace : List Event
  deriving Repr

/-- What `main` leaves behind: its return value, the bank and the actions. -/
structure Outcome where
  status : Int
  fsel : List Nat
  trace : List Event
  deriving Repr

/-- One call `set_function(pin_num, function)` made by `main`. -/
def call_set_function (pin_num function : Int) (m : Machine) : Option Machine :=
  (set_function m.fsel pin_num function).map fun fsel' =>
    Machine.mk fsel' (m.trace ++ [Event.set_function pin_num function])

/-- The loop `for (int i = <start>; i < bound; i++) body(i);`, started at
`i`, with `fuel` bounding the number of iterations; `none` when the fuel
runs out before the loop test fails, or when the body has no result. -/
def for_loop (bound : Int) (body : Int → Machine → Option Machine) :
    Nat → Int → Machine → Option Machine
  | 0, i, m => if i < bound then none else some m
  | fuel + 1, i, m =>
    if i < bound then (body i m).bind (for_loop bound body fuel (i + 1)) else some m

/-- Lines 44-46: the three pin loops, each with as much fuel as it has
iterations (`bound` minus the start value). -/
def driver_sequence (m : Machine) : Option Machine :=
  (for_loop 10 (fun i => call_set_function i kBCM2708Pinmux_ALT2) 10 0 m).bind fun m1 =>
  (for_loop 18 (fun i => call_set_function i kBCM2708Pinmux_ALT2) 6 12 m1).bind fun m2 =>
  for_loop 26 (fun i => call_set_function i kBCM2708Pinmux_ALT2) 6 20 m2

/-- Lines 28-48. -/
def main (w : World) : Option Outcome :=
  let t0 := [Event.printf_arm_phys w.arm_phys, Event.open_dev_mem]
  if w.fd < 0 then
    some (Outcome.mk 1 w.fsel (t0 ++ [Event.perror_open]))
  else
    let t1 := t0 ++ [Event.mmap (16 * 1024 * 1024) w.fd w.arm_phys]
    if w.mmap_ok = false then
      some (Outcome.mk 2 w.fsel (t1 ++ [Event.perror_mmap]))
    else
      (driver_sequence (Machine.mk w.fsel (t1 ++ [Event.close w.fd]))).map fun m =>
        Outcome.mk 0 m.fsel m.trace

/-! ## Observations used in the statements -/

/-- The 3-bit field of a word at bit offset `s`. -/
def field_at (w s : Nat) : Nat := (w >>> s) % 8

/-- The 3-bit function-select field of pin `p` in a bank: the field at
offset `(p % 10) * 3` of word `p / 10`, when that word exists. -/
def pin_field (fsel : List Nat) (p : Nat) : Option Nat :=
  (fsel[p / 10]?).map fun w => field_at w (p % 10 * 3)

/-- Bit `i` of word `j` of a bank, when that word exists. -/
def word_bit (fsel : List Nat) (j i : Nat) : Option Bool :=
  (fsel[j]?).map fun w => w.testBit i

/-- Every word of the bank is a 32-bit value. -/
def words32 (fsel : List Nat) : Prop := ∀ w ∈ fsel, w < 4294967296

/-- The `set_function` calls recorded in a trace, in order, as pairs
`(pin_num, function)`. -/
def set_function_calls (t : List Event) : List (Int × Int) :=
  t.filterMap fun e =>
    match e with
    | Event.set_function p f => some (p, f)
    | _ => none

/-- The low `n` bits of an `int` in two's complement, as a natural number:
bit `k` of `low_bits f n`, for `k < n`, is bit `k` of `f`. -/
def low_bits (f : Int) (n : Nat) : Nat := (f % 2 ^ n).toNat

/-- The `mmap` attempts recorded in a trace. -/
def mmap_calls (t : List Event) : List Event :=
  t.filter fun e =>
    match e with
    | Event.mmap _ _ _ => true
    | _ => false

/-! ## Auxiliary definitions for the proofs -/

/-- The word stored by line 16 for a pin with shift `s` (at most 27) and a
3-bit function code `f`, over the old word `old`. -/
def update_word (old s f : Nat) : Nat :=
  (old &&& (2 ^ 32 - (7 * 2 ^ s + 1))) ||| (f <<< s)

/-- Calling `set_function(p, function)` for each `p` of a list, in order. -/
def set_pins (function : Int) : List Nat → Machine → Option Machine
  | [], m => some m
  | p :: ps, m => (call_set_function (p : Int) function m).bind (set_pins function ps)

/-- The bank after `set_function(p, function)` for each `p` of a list, in
order. -/
def set_pins_bank (function : Int) : List Nat → List Nat → Option (List Nat)
  | [], fsel => some fsel
  | p :: ps, fsel => (set_function fsel (p : Int) function).bind (set_pins_bank function ps)

/-- The bank `set_function(p, f)` returns for a pin whose word lies in the
bank and a 3-bit code, as a total function. -/
def write_pin (f : Nat) (fsel : List Nat) (p : Nat) : List Nat :=
  fsel.set (p / 10) (update_word (fsel.getD (p / 10) 0) (p % 10 * 3) f)

/-- The bank after `write_pin` for each pin of a list, in order. -/
def write_pins (f : Nat) (ps : List Nat) (fsel : List Nat) : List Nat :=
  ps.foldl (write_pin f) fsel

/-- The pins visited by the three loops of `main`, in order. -/
def driver_pins : List Nat :=
  [0, 1, 2, 3, 4, 5, 6, 7, 8, 9, 12, 13, 14, 15, 16, 17, 20, 21, 22, 23, 24, 25]

/-! ## Arithmetic of the index, the shift and the two masks -/

theorem regnum_natCast (p : Nat) (h : p / 10 < 256) : regnum (p : Int) = p / 10 := by
  have h10 : Int.tdiv (p : Int) 10 = ((p / 10 : Nat) : Int) := (Int.ofNat_tdiv p 10).symm
  unfold regnum to_uint8
  rw [h10]
  omega

theorem regnum_natCast_mod (p : Nat) : regnum (p : Int) = p / 10 % 256 := by
  have h10 : Int.tdiv (p : Int) 10 = ((p / 10 : Nat) : Int) := (Int.ofNat_tdiv p 10).symm
  unfold regnum to_uint8
  rw [h10]
  omega

theorem pin_shift_natCast (p : Nat) : pin_shift (p : Int) = p % 10 * 3 := by
  have h10 : Int.tmod (p : Int) 10 = ((p % 10 : Nat) : Int) := (Int.ofNat_tmod p 10).symm
  unfold pin_shift to_uint8
  rw [h10]
  omega

theorem two_pow_le_of_le_27 (s : Nat) (hs : s ≤ 27) : 2 ^ s ≤ 134217728 := by
  calc 2 ^ s ≤ 2 ^ 27 := Nat.pow_le_pow_right (by decide) hs
    _ = 134217728 := by norm_num

theorem int_not_eq (x : Int) : ~~~ x = -x - 1 := by
  cases x with
  | ofNat n =>
    show Int.negSucc n = -(n : Int) - 1
    rw [Int.negSucc_eq]; omega
  | negSucc n =>
    show (n : Int) = -(Int.negSucc n) - 1
    rw [Int.negSucc_eq]; omega

/-- The `uint32_t` value of `~(0x7 << s)`. -/
theorem clear_mask_eq (s : Nat) (hs : s ≤ 27) :
    to_uint32 (~~~ (0x7 * 2 ^ s)) = 2 ^ 32 - (7 * 2 ^ s + 1) := by
  have h := two_pow_le_of_le_27 s hs
  have hpos : 0 < 2 ^ s := Nat.two_pow_pos s
  unfold to_uint32
  rw [int_not_eq]
  have hc : ((2 : Int) ^ s) = ((2 ^ s : Nat) : Int) := by push_cast; rfl
  rw [hc]
  generalize 2 ^ s = t at h hpos ⊢
  omega

/-- The `uint32_t` value of `function << s` for a 3-bit function code. -/
theorem value_eq (f s : Nat) (hf : f < 8) (hs : s ≤ 27) :
    to_uint32 ((f : Int) * 2 ^ s) = f <<< s := by
  have h := two_pow_le_of_le_27 s hs
  unfold to_uint32
  rw [Nat.shiftLeft_eq]
  have hc : ((f : Int) * (2 : Int) ^ s) = ((f * 2 ^ s : Nat) : Int) := by push_cast; rfl
  rw [hc]
  have hb : f * 2 ^ s < 4294967296 := by
    calc f * 2 ^ s ≤ 7 * 134217728 := Nat.mul_le_mul (by omega) h
      _ < 4294967296 := by norm_num
  generalize f * 2 ^ s = t at hb ⊢
  omega

theorem testBit_seven (j : Nat) : Nat.testBit 7 j = decide (j < 3) := by
  have h := Nat.testBit_two_pow_sub_one 3 j
  simpa using h

theorem testBit_clear_mask (s i : Nat) (hs : s ≤ 27) :
    Nat.testBit (2 ^ 32 - (7 * 2 ^ s + 1)) i
      = (decide (i < 32) && !(decide (s ≤ i) && decide (i < s + 3))) := by
  have h := two_pow_le_of_le_27 s hs
  rw [Nat.testBit_two_pow_sub_succ (by omega)]
  rw [Nat.mul_comm, Nat.testBit_mul_pow_two, testBit_seven]
  by_cases h1 : s ≤ i
  · by_cases h2 : i < s + 3
    · have : i - s < 3 := by omega
      simp [h1, h2, this]
    · have : ¬ i - s < 3 := by omega
      simp [h1, h2, this]
  · simp [h1]

/-! ## The word written by `set_function` -/

theorem testBit_of_lt_eight (f j : Nat) (hf : f < 8) (hj : ¬ j < 3) : f.testBit j = false := by
  apply Nat.testBit_lt_two_pow
  calc f < 2 ^ 3 := by omega
    _ ≤ 2 ^ j := Nat.pow_le_pow_right (by decide) (by omega)

theorem testBit_update_word (old s f i : Nat) (hs : s ≤ 27) (hf : f < 8) :
    (update_word old s f).testBit i
      = if s ≤ i ∧ i < s + 3 then f.testBit (i - s) else (decide (i < 32) && old.testBit i) := by
  unfold update_word
  rw [Nat.testBit_or, Nat.testBit_and, testBit_clear_mask s i hs, Nat.testBit_shiftLeft]
  by_cases h1 : s ≤ i
  · by_cases h2 : i < s + 3
    · simp [h1, h2]
    · have h3 : f.testBit (i - s) = false := testBit_of_lt_eight f (i - s) hf (by omega)
      simp [h1, h2, h3, Bool.and_comm]
  · have h1' : ¬ i ≥ s := h1
    simp [h1, h1', Bool.and_comm]

theorem update_word_lt (old s f : Nat) (hs : s ≤ 27) (hf : f < 8) :
    update_word old s f < 2 ^ 32 := by
  apply Nat.lt_pow_two_of_testBit
  intro i hi
  rw [testBit_update_word old s f i hs hf]
  have h32 : ¬ i < 32 := by omega
  have h : ¬ (s ≤ i ∧ i < s + 3) := by omega
  simp [h, h32]

theorem testBit_field_at (w s j : Nat) :
    (field_at w s).testBit j = (decide (j < 3) && w.testBit (s + j)) := by
  unfold field_at
  have h := Nat.testBit_mod_two_pow (w >>> s) 3 j
  rw [Nat.testBit_shiftRight] at h
  simpa using h

theorem field_at_update_word_same (old s f : Nat) (hs : s ≤ 27) (hf : f < 8) :
    field_at (update_word old s f) s = f := by
  apply Nat.eq_of_testBit_eq
  intro j
  rw [testBit_field_at, testBit_update_word old s f (s + j) hs hf]
  by_cases hj : j < 3
  · have h : s ≤ s + j ∧ s + j < s + 3 := by omega
    simp [hj, h]
  · simp [hj, testBit_of_lt_eight f j hf hj]

/-- Two fields of one word that belong to different pins do not overlap. -/
theorem field_at_update_word_other (old s t f : Nat) (hs : s ≤ 27) (ht : t ≤ 27) (hf : f < 8)
    (hdisj : s + 3 ≤ t ∨ t + 3 ≤ s) :
    field_at (update_word old s f) t = field_at old t := by
  apply Nat.eq_of_testBit_eq
  intro j
  rw [testBit_field_at, testBit_field_at, testBit_update_word old s f (t + j) hs hf]
  by_cases hj : j < 3
  · have h : ¬ (s ≤ t + j ∧ t + j < s + 3) := by omega
    have h32 : t + j < 32 := by omega
    simp [hj, h, h32]
  · simp [hj]

theorem update_word_update_word (old s f g : Nat) (hs : s ≤ 27) (hf : f < 8) (hg : g < 8) :
    update_word (update_word old s f) s g = update_word old s g := by
  apply Nat.eq_of_testBit_eq
  intro i
  rw [testBit_update_word _ s g i hs hg, testBit_update_word old s g i hs hg,
    testBit_update_word old s f i hs hf]
  by_cases h : s ≤ i ∧ i < s + 3
  · simp [h]
  · simp [h]

/-- The result of `set_function` on a non-negative pin: the word it reads
and writes is the one at the 8-bit register number. -/
theorem set_function_eq_mod (fsel : List Nat) (p f : Nat)
    (hin : p / 10 % 256 < fsel.length) (hf : f < 8) :
    set_function fsel (p : Int) (f : Int)
      = some (fsel.set (p / 10 % 256) (update_word fsel[p / 10 % 256] (p % 10 * 3) f)) := by
  have hs : p % 10 * 3 ≤ 27 := by omega
  unfold set_function
  rw [regnum_natCast_mod p, pin_shift_natCast p]
  have h32 : ¬ 32 ≤ p % 10 * 3 := by omega
  rw [if_neg h32, List.getElem?_eq_getElem hin]
  simp only []
  rw [clear_mask_eq _ hs, value_eq f _ hf hs]
  rfl

/-- The result of `set_function` on a pin whose word lies in the bank. -/
theorem set_function_eq (fsel : List Nat) (p f : Nat) (hreg : p / 10 < 256)
    (hin : p / 10 < fsel.length) (hf : f < 8) :
    set_function fsel (p : Int) (f : Int)
      = some (fsel.set (p / 10) (update_word fsel[p / 10] (p % 10 * 3) f)) := by
  have hm : p / 10 % 256 = p / 10 := Nat.mod_eq_of_lt hreg
  have hin' : p / 10 % 256 < fsel.length := by omega
  rw [set_function_eq_mod fsel p f hin' hf]
  simp only [hm]

/-- The 32-bit complement of `7 << s`, as the code computes it. -/
theorem clear_mask_eq_xor (s : Nat) (hs : s ≤ 27) :
    2 ^ 32 - (7 * 2 ^ s + 1) = 0xFFFFFFFF ^^^ (7 <<< s) := by
  apply Nat.eq_of_testBit_eq
  intro i
  have hff : (0xFFFFFFFF : Nat) = 2 ^ 32 - 1 := by norm_num
  rw [testBit_clear_mask s i hs, Nat.testBit_xor, hff, Nat.testBit_two_pow_sub_one,
    Nat.testBit_shiftLeft, testBit_seven]
  by_cases h1 : s ≤ i
  · by_cases h2 : i < s + 3
    · have h3 : i - s < 3 := by omega
      have h4 : i < 32 := by omega
      simp [h1, h2, h3, h4]
    · have h3 : ¬ i - s < 3 := by omega
      simp [h1, h2, h3]
  · have h1' : ¬ i ≥ s := h1
    simp [h1, h1']

theorem pin_field_set_same (fsel : List Nat) (p w : Nat) (hin : p / 10 < fsel.length) :
    pin_field (fsel.set (p / 10) w) p = some (field_at w (p % 10 * 3)) := by
  unfold pin_field
  rw [List.getElem?_set_self hin]
  rfl

theorem pin_field_of_lt (fsel : List Nat) (p : Nat) (hin : p / 10 < fsel.length) :
    pin_field fsel p = some (field_at fsel[p / 10] (p % 10 * 3)) := by
  unfold pin_field
  rw [List.getElem?_eq_getElem hin]
  rfl

/-- The frame of `set_function` on the 3-bit fields: the field of any other
pin is the same before and after. -/
theorem pin_field_set_function (fsel : List Nat) (p q f : Nat)
    (hpin : p / 10 < fsel.length) (hne : p ≠ q) (hf : f < 8) :
    pin_field (fsel.set (p / 10) (update_word fsel[p / 10] (p % 10 * 3) f)) q
      = pin_field fsel q := by
  by_cases hw : p / 10 = q / 10
  · unfold pin_field
    rw [← hw, List.getElem?_set_self hpin, List.getElem?_eq_getElem hpin]
    simp only [Option.map_some']
    congr 1
    apply field_at_update_word_other _ _ _ _ (by omega) (by omega) hf
    omega
  · unfold pin_field
    rw [List.getElem?_set_ne hw]

/-- Setting a pin a second time overwrites the first setting. -/
theorem set_function_set_function (fsel : List Nat) (p f g : Nat) (hreg : p / 10 < 256)
    (hin : p / 10 < fsel.length) (hf : f < 8) (hg : g < 8) :
    set_function (fsel.set (p / 10) (update_word fsel[p / 10] (p % 10 * 3) f)) (p : Int) (g : Int)
      = some (fsel.set (p / 10) (update_word fsel[p / 10] (p % 10 * 3) g)) := by
  have hs : p % 10 * 3 ≤ 27 := by omega
  have hin' : p / 10 < (fsel.set (p / 10) (update_word fsel[p / 10] (p % 10 * 3) f)).length := by
    rw [List.length_set]; exact hin
  rw [set_function_eq _ p g hreg hin' hg, List.getElem_set_self, List.set_set,
    update_word_update_word _ _ _ _ hs hf hg]

theorem testBit_word32 (w i : Nat) (hw : w < 4294967296) :
    (decide (i < 32) && w.testBit i) = w.testBit i := by
  by_cases h : i < 32
  · simp [h]
  · have h0 : w.testBit i = false := by
      apply Nat.testBit_lt_two_pow
      calc w < 2 ^ 32 := by norm_num; exact hw
        _ ≤ 2 ^ i := Nat.pow_le_pow_right (by decide) (by omega)
    simp [h0]

/-! ## The claims on `set_function` -/

/-- C1: for a pin `p` whose register index `p / 10` is below 256 and inside
the bank, and a function code `f` in 0..7, `set_function` returns a bank
whose word `p / 10` is `(old AND NOT (7 << s)) OR (f << s)` with
`s = (p % 10) * 3`, the complement taken in 32 bits, and the 3-bit field of
`p` read back from that bank is `f`. -/
theorem set_function_writes_field (fsel : List Nat) (p f : Nat) (hreg : p / 10 < 256)
    (hin : p / 10 < fsel.length) (hf : f < 8) :
    ∃ fsel', set_function fsel (p : Int) (f : Int) = some fsel' ∧
      fsel'[p / 10]? = some ((fsel[p / 10] &&& (0xFFFFFFFF ^^^ (7 <<< (p % 10 * 3))))
        ||| (f <<< (p % 10 * 3))) ∧
      field_at ((fsel[p / 10] &&& (0xFFFFFFFF ^^^ (7 <<< (p % 10 * 3))))
        ||| (f <<< (p % 10 * 3))) (p % 10 * 3) = f ∧
      pin_field fsel' p = some f := by
  have hs : p % 10 * 3 ≤ 27 := by omega
  have hu : (fsel[p / 10] &&& (0xFFFFFFFF ^^^ (7 <<< (p % 10 * 3)))) ||| (f <<< (p % 10 * 3))
      = update_word fsel[p / 10] (p % 10 * 3) f := by
    unfold update_word
    rw [clear_mask_eq_xor _ hs]
  refine ⟨_, set_function_eq fsel p f hreg hin hf, ?_, ?_, ?_⟩
  · rw [List.getElem?_set_self hin, hu]
  · rw [hu]
    exact field_at_update_word_same _ _ _ hs hf
  · rw [pin_field_set_same _ _ _ hin, field_at_update_word_same _ _ _ hs hf]

/-- Witness of C1: pin 19 of a three-word bank holding `0xFFFFFFFF`
everywhere, function code 5. -/
theorem set_function_writes_field_witness :
    ∃ fsel', set_function [0xFFFFFFFF, 0xFFFFFFFF, 0xFFFFFFFF] ((19 : Nat) : Int) ((5 : Nat) : Int)
        = some fsel' ∧
      fsel'[19 / 10]? = some (([0xFFFFFFFF, 0xFFFFFFFF, 0xFFFFFFFF][19 / 10]
        &&& (0xFFFFFFFF ^^^ (7 <<< (19 % 10 * 3)))) ||| (5 <<< (19 % 10 * 3))) ∧
      field_at (([0xFFFFFFFF, 0xFFFFFFFF, 0xFFFFFFFF][19 / 10]
        &&& (0xFFFFFFFF ^^^ (7 <<< (19 % 10 * 3)))) ||| (5 <<< (19 % 10 * 3))) (19 % 10 * 3) = 5 ∧
      pin_field fsel' 19 = some 5 :=
  set_function_writes_field [0xFFFFFFFF, 0xFFFFFFFF, 0xFFFFFFFF] 19 5
    (by decide) (by decide) (by decide)

/-- C2 (P1, bit isolation): on a bank of 32-bit words, for a pin `p` whose
register index is below 256 and inside the bank and function codes `f`, `g`
in 0..7, `set_function(p, f)` followed by `set_function(p, g)` leaves every
bit of every word unchanged except bits `s .. s+2` of word `p / 10`
(`s = (p % 10) * 3`); in particular every word other than `p / 10`, and bits
30 and 31 of every word, keep their initial value. -/
theorem set_function_bit_isolation (fsel : List Nat) (p f g : Nat) (hw : words32 fsel)
    (hreg : p / 10 < 256) (hin : p / 10 < fsel.length) (hf : f < 8) (hg : g < 8) :
    ∃ fsel1 fsel2 : List Nat, set_function fsel (p : Int) (f : Int) = some fsel1 ∧
      set_function fsel1 (p : Int) (g : Int) = some fsel2 ∧
      fsel2.length = fsel.length ∧
      (∀ j i, ¬ (j = p / 10 ∧ p % 10 * 3 ≤ i ∧ i < p % 10 * 3 + 3) →
        word_bit fsel2 j i = word_bit fsel j i) ∧
      (∀ j, j ≠ p / 10 → fsel2[j]? = fsel[j]?) ∧
      (∀ j, word_bit fsel2 j 30 = word_bit fsel j 30 ∧
        word_bit fsel2 j 31 = word_bit fsel j 31) := by
  have hs : p % 10 * 3 ≤ 27 := by omega
  have hbits : ∀ j i, ¬ (j = p / 10 ∧ p % 10 * 3 ≤ i ∧ i < p % 10 * 3 + 3) →
      word_bit (fsel.set (p / 10) (update_word fsel[p / 10] (p % 10 * 3) g)) j i
        = word_bit fsel j i := by
    intro j i hji
    unfold word_bit
    by_cases hj : p / 10 = j
    · subst hj
      rw [List.getElem?_set_self hin, List.getElem?_eq_getElem hin]
      simp only [Option.map_some']
      congr 1
      rw [testBit_update_word _ _ _ _ hs hg]
      have hout : ¬ (p % 10 * 3 ≤ i ∧ i < p % 10 * 3 + 3) := fun h => hji ⟨rfl, h⟩
      rw [if_neg hout]
      exact testBit_word32 _ _ (hw _ (List.getElem_mem hin))
    · rw [List.getElem?_set_ne hj]
  refine ⟨_, _, set_function_eq fsel p f hreg hin hf,
    set_function_set_function fsel p f g hreg hin hf hg, ?_, hbits, ?_, ?_⟩
  · rw [List.length_set]
  · intro j hj
    rw [List.getElem?_set_ne (Ne.symm hj)]
  · intro j
    exact ⟨hbits j 30 (by omega), hbits j 31 (by omega)⟩

/-- Witness of C2: pin 15 of a three-word bank, set to 6 and then to 1. -/
theorem set_function_bit_isolation_witness :
    ∃ fsel1 fsel2 : List Nat,
      set_function [0xFFFFFFFF, 0x12345678, 0] ((15 : Nat) : Int) ((6 : Nat) : Int) = some fsel1 ∧
      set_function fsel1 ((15 : Nat) : Int) ((1 : Nat) : Int) = some fsel2 ∧
      fsel2.length = [0xFFFFFFFF, 0x12345678, 0].length ∧
      (∀ j i, ¬ (j = 15 / 10 ∧ 15 % 10 * 3 ≤ i ∧ i < 15 % 10 * 3 + 3) →
        word_bit fsel2 j i
          = word_bit [0xFFFFFFFF, 0x12345678, 0] j i) ∧
      (∀ j, j ≠ 15 / 10 → fsel2[j]? = [0xFFFFFFFF, 0x12345678, 0][j]?) ∧
      (∀ j, word_bit fsel2 j 30
          = word_bit [0xFFFFFFFF, 0x12345678, 0] j 30 ∧
        word_bit fsel2 j 31
          = word_bit [0xFFFFFFFF, 0x12345678, 0] j 31) :=
  set_function_bit_isolation [0xFFFFFFFF, 0x12345678, 0] 15 6 1
    (by unfold words32; decide) (by decide) (by decide) (by decide) (by decide)

/-- C3 (P3, pin independence): for two distinct pins `p` and `q`, both with
register index below 256 and inside the bank, and a function code `f` in
0..7, `set_function(p, f)` leaves the 3-bit field of `q` as it was, also
when `p` and `q` lie in the same word. -/
theorem set_function_pin_independence (fsel : List Nat) (p q f : Nat)
    (hp : p / 10 < 256) (hpin : p / 10 < fsel.length)
    (_hq : q / 10 < 256) (hqin : q / 10 < fsel.length) (hne : p ≠ q) (hf : f < 8) :
    ∃ fsel' v, set_function fsel (p : Int) (f : Int) = some fsel' ∧
      pin_field fsel q = some v ∧ pin_field fsel' q = some v := by
  refine ⟨_, _, set_function_eq fsel p f hp hpin hf, pin_field_of_lt fsel q hqin, ?_⟩
  rw [pin_field_set_function fsel p q f hpin hne hf]
  exact pin_field_of_lt fsel q hqin

/-- Witness of C3: pins 0 and 5 share register 0. -/
theorem set_function_pin_independence_witness :
    (0 : Nat) / 10 = 5 / 10 ∧
    ∃ fsel' v, set_function [0x36DB6DB6, 0, 0] ((0 : Nat) : Int) ((1 : Nat) : Int) = some fsel' ∧
      pin_field [0x36DB6DB6, 0, 0] 5 = some v ∧ pin_field fsel' 5 = some v :=
  ⟨by decide, set_function_pin_independence [0x36DB6DB6, 0, 0] 0 5 1
    (by decide) (by decide) (by decide) (by decide) (by decide) (by decide)⟩

/-- C4 (P2, idempotence): for a pin `p` whose register index is below 256
and inside the bank and a function code `f` in 0..7, a second
`set_function(p, f)` right after the first returns the bank the first one
returned. -/
theorem set_function_idempotent (fsel : List Nat) (p f : Nat) (hreg : p / 10 < 256)
    (hin : p / 10 < fsel.length) (hf : f < 8) :
    ∃ fsel1, set_function fsel (p : Int) (f : Int) = some fsel1 ∧
      set_function fsel1 (p : Int) (f : Int) = some fsel1 :=
  ⟨_, set_function_eq fsel p f hreg hin hf, set_function_set_function fsel p f f hreg hin hf hf⟩

/-- Witness of C4: pin 29 of a three-word bank, function code 3. -/
theorem set_function_idempotent_witness :
    ∃ fsel1, set_function [7, 0xFFFFFFFF, 0xFFFFFFFF] ((29 : Nat) : Int) ((3 : Nat) : Int)
        = some fsel1 ∧
      set_function fsel1 ((29 : Nat) : Int) ((3 : Nat) : Int) = some fsel1 :=
  set_function_idempotent [7, 0xFFFFFFFF, 0xFFFFFFFF] 29 3 (by decide) (by decide) (by decide)

/-- C5 (P4, address arithmetic): for the pins 0, 9, 10, 19, 20, 29 the pairs
`(regnum, pin_shift)` computed by `set_function` are `(0,0)`, `(0,27)`,
`(1,0)`, `(1,27)`, `(2,0)`, `(2,27)`. -/
theorem regnum_pin_shift_table :
    (regnum 0, pin_shift 0) = (0, 0) ∧ (regnum 9, pin_shift 9) = (0, 27) ∧
    (regnum 10, pin_shift 10) = (1, 0) ∧ (regnum 19, pin_shift 19) = (1, 27) ∧
    (regnum 20, pin_shift 20) = (2, 0) ∧ (regnum 29, pin_shift 29) = (2, 27) := by
  decide

/-- C6, counterexample: pin 2560 addresses a register inside the 16 MiB
window (byte offset `0x200000 + 4 * 256`), its register index `2560 / 10` is
256, but the 8-bit `regnum` is 0: on a bank of 257 zero words
`set_function(2560, 6)` writes word 0 and leaves word 256 as it was. -/
theorem regnum_wraps_at_pin_2560 :
    0x200000 + 4 * (2560 / 10) < 16 * 1024 * 1024 ∧ 2560 / 10 = 256 ∧
    regnum 2560 = 0 ∧ regnum 2560 ≠ 2560 / 10 ∧
    ∃ fsel', set_function (List.replicate 257 0) 2560 6 = some fsel' ∧
      fsel'[0]? = some 6 ∧ fsel'[256]? = some 0 ∧ (List.replicate 257 0)[256]? = some 0 := by
  have hlen : (List.replicate 257 0).length = 257 := List.length_replicate 257 0
  have h0 : 2560 / 10 % 256 < (List.replicate 257 0).length := by rw [hlen]; decide
  have h256 : (List.replicate 257 0)[256]? = some 0 := by
    rw [List.getElem?_eq_getElem (by rw [hlen]; decide), List.getElem_replicate]
  refine ⟨by decide, by decide, by decide, by decide, _,
    set_function_eq_mod (List.replicate 257 0) 2560 6 h0 (by decide), ?_, ?_, h256⟩
  · rw [List.getElem?_set_self h0, List.getElem_replicate]
    rfl
  · rw [List.getElem?_set_ne (by decide)]
    exact h256

/-- C6, amended: for every pin index `p >= 0` that addresses a register
inside the mapped window, the word `set_function` reads and writes is the one
at register index `(p / 10) mod 256`, which is `p / 10` when `p / 10 < 256`,
and the shift it uses is `(p % 10) * 3`. -/
theorem set_function_register_index (fsel : List Nat) (p f : Nat)
    (_hwin : 0x200000 + 4 * (p / 10) < 16 * 1024 * 1024)
    (hin : p / 10 % 256 < fsel.length) (hf : f < 8) :
    regnum (p : Int) = p / 10 % 256 ∧ pin_shift (p : Int) = p % 10 * 3 ∧
    (p / 10 < 256 → regnum (p : Int) = p / 10) ∧
    ∃ old, fsel[regnum (p : Int)]? = some old ∧
      set_function fsel (p : Int) (f : Int)
        = some (fsel.set (regnum (p : Int))
            ((old &&& (0xFFFFFFFF ^^^ (7 <<< pin_shift (p : Int)))) ||| (f <<< pin_shift (p : Int)))) := by
  have hs : p % 10 * 3 ≤ 27 := by omega
  refine ⟨regnum_natCast_mod p, pin_shift_natCast p, regnum_natCast p, fsel[p / 10 % 256], ?_, ?_⟩
  · rw [regnum_natCast_mod p, List.getElem?_eq_getElem hin]
  · rw [set_function_eq_mod fsel p f hin hf, regnum_natCast_mod p, pin_shift_natCast p,
      ← clear_mask_eq_xor _ hs]
    rfl

/-- Witness of the amended C6: pin 2565 on a three-word bank, whose 8-bit
register number is 0. -/
theorem set_function_register_index_witness :
    regnum ((2565 : Nat) : Int) = 2565 / 10 % 256 ∧ pin_shift ((2565 : Nat) : Int) = 2565 % 10 * 3 ∧
    (2565 / 10 < 256 → regnum ((2565 : Nat) : Int) = 2565 / 10) ∧
    ∃ old, [1, 2, 3][regnum ((2565 : Nat) : Int)]? = some old ∧
      set_function [1, 2, 3] ((2565 : Nat) : Int) ((6 : Nat) : Int)
        = some ([1, 2, 3].set (regnum ((2565 : Nat) : Int))
            ((old &&& (0xFFFFFFFF ^^^ (7 <<< pin_shift ((2565 : Nat) : Int))))
              ||| (6 <<< pin_shift ((2565 : Nat) : Int)))) :=
  set_function_register_index [1, 2, 3] 2565 6 (by decide) (by decide) (by decide)

/-! ## The pin loops of `main` -/

/-- The trace entries of the calls `set_function(p, function)` for a list of
pins. -/
theorem set_pins_eq (function : Int) (ps : List Nat) (m : Machine) :
    set_pins function ps m
      = (set_pins_bank function ps m.fsel).map fun fsel' =>
          Machine.mk fsel' (m.trace ++ ps.map fun p : Nat => Event.set_function (p : Int) function) := by
  induction ps generalizing m with
  | nil => simp [set_pins, set_pins_bank]
  | cons p ps ih =>
    unfold set_pins set_pins_bank call_set_function
    cases h : set_function m.fsel (p : Int) function with
    | none => simp
    | some fsel1 => simp [ih]

theorem set_pins_append (function : Int) (ps qs : List Nat) (m : Machine) :
    set_pins function (ps ++ qs) m = (set_pins function ps m).bind (set_pins function qs) := by
  induction ps generalizing m with
  | nil => simp [set_pins]
  | cons p ps ih =>
    simp only [List.cons_append, set_pins]
    cases h : call_set_function (p : Int) function m with
    | none => simp
    | some m1 => simp [ih]

/-- A loop `for (int i = lo; i < lo + n; i++) set_function(i, function);`
with fuel `n` visits the pins `lo, lo + 1, ..., lo + n - 1` in order. -/
theorem for_loop_eq_set_pins (function : Int) (n lo : Nat) (m : Machine) :
    for_loop ((lo + n : Nat) : Int) (fun i => call_set_function i function) n (lo : Int) m
      = set_pins function (List.range' lo n) m := by
  induction n generalizing lo m with
  | zero => simp [for_loop, set_pins]
  | succ n ih =>
    have hlt : (lo : Int) < ((lo + (n + 1) : Nat) : Int) := by omega
    have hb : ((lo + (n + 1) : Nat) : Int) = ((lo + 1 + n : Nat) : Int) := by omega
    have hi : (lo : Int) + 1 = ((lo + 1 : Nat) : Int) := by omega
    simp only [for_loop, if_pos hlt, List.range'_succ, set_pins]
    rw [hb, hi]
    congr 1
    funext m1
    exact ih (lo + 1) m1

theorem driver_sequence_eq (m : Machine) :
    driver_sequence m = set_pins kBCM2708Pinmux_ALT2 driver_pins m := by
  have h1 : ∀ m1, for_loop 10 (fun i => call_set_function i kBCM2708Pinmux_ALT2) 10 0 m1
      = set_pins kBCM2708Pinmux_ALT2 (List.range' 0 10) m1 :=
    for_loop_eq_set_pins kBCM2708Pinmux_ALT2 10 0
  have h2 : ∀ m1, for_loop 18 (fun i => call_set_function i kBCM2708Pinmux_ALT2) 6 12 m1
      = set_pins kBCM2708Pinmux_ALT2 (List.range' 12 6) m1 :=
    for_loop_eq_set_pins kBCM2708Pinmux_ALT2 6 12
  have h3 : ∀ m1, for_loop 26 (fun i => call_set_function i kBCM2708Pinmux_ALT2) 6 20 m1
      = set_pins kBCM2708Pinmux_ALT2 (List.range' 20 6) m1 :=
    for_loop_eq_set_pins kBCM2708Pinmux_ALT2 6 20
  have hp : driver_pins = List.range' 0 10 ++ (List.range' 12 6 ++ List.range' 20 6) := by decide
  unfold driver_sequence
  rw [hp, set_pins_append, h1]
  congr 1
  funext m1
  rw [set_pins_append, h2]
  simp only [h3]

/-- Setting a list of pins whose words lie in the bank succeeds, keeps the
length of the bank, and leaves the field of every pin outside the list as it
was. -/
theorem set_pins_bank_frame (f : Nat) (hf : f < 8) (ps : List Nat) (fsel : List Nat)
    (h : ∀ p ∈ ps, p / 10 < 256 ∧ p / 10 < fsel.length) :
    ∃ fsel', set_pins_bank (f : Int) ps fsel = some fsel' ∧ fsel'.length = fsel.length ∧
      ∀ q, q ∉ ps → pin_field fsel' q = pin_field fsel q := by
  induction ps generalizing fsel with
  | nil => exact ⟨fsel, rfl, rfl, fun _ _ => rfl⟩
  | cons p ps ih =>
    obtain ⟨hreg, hin⟩ := h p (List.mem_cons_self p ps)
    have hlen : (fsel.set (p / 10) (update_word fsel[p / 10] (p % 10 * 3) f)).length
        = fsel.length := List.length_set _ _ _
    obtain ⟨fsel', hrun, hlen', hframe⟩ :=
      ih (fsel.set (p / 10) (update_word fsel[p / 10] (p % 10 * 3) f)) (by
        intro q hq
        rw [hlen]
        exact h q (List.mem_cons_of_mem p hq))
    refine ⟨fsel', ?_, by rw [hlen', hlen], ?_⟩
    · unfold set_pins_bank
      rw [set_function_eq fsel p f hreg hin hf]
      exact hrun
    · intro q hq
      have hne : p ≠ q := fun e => hq (by rw [e]; exact List.mem_cons_self q ps)
      have hq' : q ∉ ps := fun e => hq (List.mem_cons_of_mem p e)
      rw [hframe q hq', pin_field_set_function fsel p q f hin hne hf]

theorem driver_pins_in_bank (fsel : List Nat) (h3 : 3 ≤ fsel.length) :
    ∀ p ∈ driver_pins, p / 10 < 256 ∧ p / 10 < fsel.length := by
  intro p hp
  have h : p / 10 < 3 := by
    revert p
    decide
  omega

/-- The successful path of `main`: the bank is the one the pin list
produces, and the trace is the four system calls followed by the
`set_function` calls. -/
theorem main_eq_of_success (w : World) (hopen : 0 ≤ w.fd) (hmap : w.mmap_ok = true) :
    main w = (set_pins_bank kBCM2708Pinmux_ALT2 driver_pins w.fsel).map fun fsel' =>
      Outcome.mk 0 fsel'
        ([Event.printf_arm_phys w.arm_phys, Event.open_dev_mem,
            Event.mmap (16 * 1024 * 1024) w.fd w.arm_phys, Event.close w.fd]
          ++ driver_pins.map fun p : Nat => Event.set_function (p : Int) kBCM2708Pinmux_ALT2) := by
  have hfd : ¬ w.fd < 0 := by omega
  unfold main
  simp only [if_neg hfd, hmap, driver_sequence_eq, set_pins_eq]
  cases set_pins_bank kBCM2708Pinmux_ALT2 driver_pins w.fsel with
  | none => simp
  | some fsel' => simp

/-- The bank left by the pin loops does not depend on the trace. -/
theorem driver_sequence_fsel (fsel : List Nat) (t : List Event) :
    (driver_sequence (Machine.mk fsel t)).map Machine.fsel
      = set_pins_bank kBCM2708Pinmux_ALT2 driver_pins fsel := by
  rw [driver_sequence_eq, set_pins_eq]
  cases set_pins_bank kBCM2708Pinmux_ALT2 driver_pins fsel with
  | none => rfl
  | some fsel' => rfl

theorem main_fsel_of_success (a fd : Nat) (fsel : List Nat) :
    (main (World.mk a (fd : Int) true fsel)).map Outcome.fsel
      = set_pins_bank kBCM2708Pinmux_ALT2 driver_pins fsel := by
  rw [main_eq_of_success _ (Int.ofNat_nonneg fd) rfl]
  cases set_pins_bank kBCM2708Pinmux_ALT2 driver_pins fsel with
  | none => rfl
  | some fsel' => rfl

theorem main_status_of_success (w : World) (hopen : 0 ≤ w.fd) (hmap : w.mmap_ok = true)
    (h3 : 3 ≤ w.fsel.length) :
    ∃ r, main w = some r ∧ r.status = 0 := by
  obtain ⟨fsel', hrun, _, _⟩ :=
    set_pins_bank_frame 6 (by decide) driver_pins w.fsel (driver_pins_in_bank w.fsel h3)
  have h6 : ((6 : Nat) : Int) = kBCM2708Pinmux_ALT2 := rfl
  rw [h6] at hrun
  rw [main_eq_of_success w hopen hmap, hrun]
  exact ⟨_, rfl, rfl⟩

theorem main_of_open_failure (w : World) (hopen : w.fd < 0) :
    main w = some (Outcome.mk 1 w.fsel
      [Event.printf_arm_phys w.arm_phys, Event.open_dev_mem, Event.perror_open]) := by
  unfold main
  simp only [if_pos hopen]
  rfl

theorem main_of_mmap_failure (w : World) (hopen : 0 ≤ w.fd) (hmap : w.mmap_ok = false) :
    main w = some (Outcome.mk 2 w.fsel
      [Event.printf_arm_phys w.arm_phys, Event.open_dev_mem,
        Event.mmap (16 * 1024 * 1024) w.fd w.arm_phys, Event.perror_mmap]) := by
  have hfd : ¬ w.fd < 0 := by omega
  unfold main
  simp only [if_neg hfd, hmap]
  rfl

/-- The return value of `main` in terms of the two system-call outcomes. -/
theorem main_status_cases (w : World) (h3 : 3 ≤ w.fsel.length) :
    ∃ r, main w = some r ∧
      r.status = (if w.fd < 0 then 1 else if w.mmap_ok = false then 2 else 0) := by
  by_cases hopen : w.fd < 0
  · exact ⟨_, main_of_open_failure w hopen, by simp [hopen]⟩
  · by_cases hmap : w.mmap_ok = false
    · exact ⟨_, main_of_mmap_failure w (by omega) hmap, by simp [hopen, hmap]⟩
    · have hmap' : w.mmap_ok = true := by simpa using hmap
      obtain ⟨r, hr, hs⟩ := main_status_of_success w (by omega) hmap' h3
      exact ⟨r, hr, by simp [hopen, hmap', hs]⟩

/-! ## The claims on `main` -/

/-- C7: when `open` and `mmap` both succeed (and the mapped bank holds the
three registers the loops address), `main` returns, and the `set_function`
calls it made are the 22 calls for pins 0..9, 12..17, 20..25 in this order,
each with function code 6; no pin is set twice and pins 10, 11, 18, 19 are
not among them. -/
theorem main_set_function_calls (w : World) (hopen : 0 ≤ w.fd) (hmap : w.mmap_ok = true)
    (h3 : 3 ≤ w.fsel.length) :
    ∃ r, main w = some r ∧
      set_function_calls r.trace
        = [(0, 6), (1, 6), (2, 6), (3, 6), (4, 6), (5, 6), (6, 6), (7, 6), (8, 6), (9, 6),
           (12, 6), (13, 6), (14, 6), (15, 6), (16, 6), (17, 6),
           (20, 6), (21, 6), (22, 6), (23, 6), (24, 6), (25, 6)] ∧
      (set_function_calls r.trace).length = 22 ∧
      ((set_function_calls r.trace).map Prod.fst).Nodup ∧
      (∀ q ∈ [10, 11, 18, 19], q ∉ (set_function_calls r.trace).map Prod.fst) ∧
      (∀ c ∈ set_function_calls r.trace, c.2 = kBCM2708Pinmux_ALT2) := by
  obtain ⟨fsel', hrun, _, _⟩ :=
    set_pins_bank_frame 6 (by decide) driver_pins w.fsel (driver_pins_in_bank w.fsel h3)
  have h6 : ((6 : Nat) : Int) = kBCM2708Pinmux_ALT2 := rfl
  rw [h6] at hrun
  have hcalls : set_function_calls
      ([Event.printf_arm_phys w.arm_phys, Event.open_dev_mem,
          Event.mmap (16 * 1024 * 1024) w.fd w.arm_phys, Event.close w.fd]
        ++ driver_pins.map fun p : Nat => Event.set_function (p : Int) kBCM2708Pinmux_ALT2)
      = [(0, 6), (1, 6), (2, 6), (3, 6), (4, 6), (5, 6), (6, 6), (7, 6), (8, 6), (9, 6),
         (12, 6), (13, 6), (14, 6), (15, 6), (16, 6), (17, 6),
         (20, 6), (21, 6), (22, 6), (23, 6), (24, 6), (25, 6)] := by
    simp [set_function_calls, driver_pins, kBCM2708Pinmux_ALT2]
  refine ⟨Outcome.mk 0 fsel' _, ?_, hcalls, ?_, ?_, ?_, ?_⟩
  · rw [main_eq_of_success w hopen hmap, hrun]
    rfl
  · show (set_function_calls _).length = 22
    rw [hcalls]; rfl
  · show ((set_function_calls _).map Prod.fst).Nodup
    rw [hcalls]; decide
  · show ∀ q ∈ [10, 11, 18, 19], q ∉ (set_function_calls _).map Prod.fst
    rw [hcalls]; decide
  · show ∀ c ∈ set_function_calls _, c.2 = kBCM2708Pinmux_ALT2
    rw [hcalls]; decide

/-- Witness of C7: a world in which `open` returns descriptor 3 and `mmap`
succeeds, over a three-word bank. -/
theorem main_set_function_calls_witness :
    ∃ r, main (World.mk 0x3F000000 3 true [0, 0, 0]) = some r ∧
      set_function_calls r.trace
        = [(0, 6), (1, 6), (2, 6), (3, 6), (4, 6), (5, 6), (6, 6), (7, 6), (8, 6), (9, 6),
           (12, 6), (13, 6), (14, 6), (15, 6), (16, 6), (17, 6),
           (20, 6), (21, 6), (22, 6), (23, 6), (24, 6), (25, 6)] ∧
      (set_function_calls r.trace).length = 22 ∧
      ((set_function_calls r.trace).map Prod.fst).Nodup ∧
      (∀ q ∈ [10, 11, 18, 19], q ∉ (set_function_calls r.trace).map Prod.fst) ∧
      (∀ c ∈ set_function_calls r.trace, c.2 = kBCM2708Pinmux_ALT2) :=
  main_set_function_calls (World.mk 0x3F000000 3 true [0, 0, 0])
    (by decide) rfl (by decide)

/-- C8 (scenario): from a zero-initialised bank of three registers the pin
loops of `main` leave register 0 equal to `6 | 6<<3 | ... | 6<<27`
(`0x36DB6DB6`), register 1 equal to `0x00DB6D80` (fields 2..7 are 6, fields
0, 1, 8, 9 are 0) and register 2 equal to `0x00036DB6` (fields 0..5 are 6,
fields 6..9 are 0); the successful path of `main` leaves the same bank. -/
theorem driver_sequence_zero_bank :
    (∀ t, (driver_sequence (Machine.mk [0, 0, 0] t)).map Machine.fsel
      = some [0x36DB6DB6, 0x00DB6D80, 0x00036DB6]) ∧
    (∀ a fd : Nat, (main (World.mk a (fd : Int) true [0, 0, 0])).map Outcome.fsel
      = some [0x36DB6DB6, 0x00DB6D80, 0x00036DB6]) ∧
    (6 ||| 6 <<< 3 ||| 6 <<< 6 ||| 6 <<< 9 ||| 6 <<< 12 ||| 6 <<< 15 ||| 6 <<< 18
      ||| 6 <<< 21 ||| 6 <<< 24 ||| 6 <<< 27 = 0x36DB6DB6) ∧
    (List.range 30).map (pin_field [0x36DB6DB6, 0x00DB6D80, 0x00036DB6])
      = [some 6, some 6, some 6, some 6, some 6, some 6, some 6, some 6, some 6, some 6,
         some 0, some 0, some 6, some 6, some 6, some 6, some 6, some 6, some 0, some 0,
         some 6, some 6, some 6, some 6, some 6, some 6, some 0, some 0, some 0, some 0] := by
  have hrun : set_pins_bank kBCM2708Pinmux_ALT2 driver_pins [0, 0, 0]
      = some [0x36DB6DB6, 0x00DB6D80, 0x00036DB6] := by decide
  refine ⟨fun t => ?_, fun a fd => ?_, by decide, by decide⟩
  · rw [driver_sequence_fsel, hrun]
  · rw [main_fsel_of_success, hrun]

/-- C9 (P5, skipped pins): for every initial bank of at least three words,
the pin loops of `main` return a bank in which the 3-bit fields of pins 10,
11, 18 and 19 hold their initial values; the successful path of `main`
leaves exactly that bank. -/
theorem driver_sequence_skipped_pins (fsel : List Nat) (t : List Event)
    (h3 : 3 ≤ fsel.length) :
    ∃ m', driver_sequence (Machine.mk fsel t) = some m' ∧
      (∀ q ∈ [10, 11, 18, 19], ∃ v, pin_field fsel q = some v ∧ pin_field m'.fsel q = some v) ∧
      (∀ a fd : Nat, (main (World.mk a (fd : Int) true fsel)).map Outcome.fsel = some m'.fsel) := by
  obtain ⟨fsel', hrun, _, hframe⟩ :=
    set_pins_bank_frame 6 (by decide) driver_pins fsel (driver_pins_in_bank fsel h3)
  have h6 : ((6 : Nat) : Int) = kBCM2708Pinmux_ALT2 := rfl
  rw [h6] at hrun
  have hd := driver_sequence_fsel fsel t
  rw [hrun] at hd
  cases hm : driver_sequence (Machine.mk fsel t) with
  | none => rw [hm] at hd; cases hd
  | some m' =>
    rw [hm] at hd
    have hf : m'.fsel = fsel' := by simpa using hd
    refine ⟨m', rfl, ?_, ?_⟩
    · intro q hq
      have hq3 : q / 10 < 3 ∧ q ∉ driver_pins := by
        revert q
        decide
      have hlt : q / 10 < fsel.length := by omega
      have hnot : q ∉ driver_pins := hq3.2
      exact ⟨_, pin_field_of_lt fsel q hlt, by rw [hf, hframe q hnot]; exact pin_field_of_lt fsel q hlt⟩
    · intro a fd
      rw [main_fsel_of_success, hrun, hf]

/-- Witness of C9: a three-word bank with every bit set, so that the four
skipped fields start at 7. -/
theorem driver_sequence_skipped_pins_witness :
    ∃ m', driver_sequence (Machine.mk [0xFFFFFFFF, 0xFFFFFFFF, 0xFFFFFFFF] []) = some m' ∧
      (∀ q ∈ [10, 11, 18, 19], ∃ v,
        pin_field [0xFFFFFFFF, 0xFFFFFFFF, 0xFFFFFFFF] q = some v ∧ pin_field m'.fsel q = some v) ∧
      (∀ a fd : Nat,
        (main (World.mk a (fd : Int) true [0xFFFFFFFF, 0xFFFFFFFF, 0xFFFFFFFF])).map Outcome.fsel
          = some m'.fsel) :=
  driver_sequence_skipped_pins [0xFFFFFFFF, 0xFFFFFFFF, 0xFFFFFFFF] [] (by decide)

/-- C10: `main` returns, and its return value is determined by the two
system-call outcomes: it is 1 exactly when `open` fails (`fd < 0`), 2 exactly
when `open` succeeds and `mmap` fails, 0 exactly when both succeed; it is
never anything else, and two runs with the same outcomes return the same
value. -/
theorem main_exit_status (w : World) (h3 : 3 ≤ w.fsel.length) :
    ∃ r, main w = some r ∧
      (r.status = 1 ↔ w.fd < 0) ∧
      (r.status = 2 ↔ (0 ≤ w.fd ∧ w.mmap_ok = false)) ∧
      (r.status = 0 ↔ (0 ≤ w.fd ∧ w.mmap_ok = true)) ∧
      (r.status = 0 ∨ r.status = 1 ∨ r.status = 2) ∧
      (∀ w' : World, 3 ≤ w'.fsel.length → (w'.fd < 0 ↔ w.fd < 0) → w'.mmap_ok = w.mmap_ok →
        (main w').map Outcome.status = some r.status) := by
  obtain ⟨r, hr, hs⟩ := main_status_cases w h3
  have hdet : ∀ w' : World, 3 ≤ w'.fsel.length → (w'.fd < 0 ↔ w.fd < 0) →
      w'.mmap_ok = w.mmap_ok → (main w').map Outcome.status = some r.status := by
    intro w' h3' hfd hmap
    obtain ⟨r', hr', hs'⟩ := main_status_cases w' h3'
    rw [hr', Option.map_some', hs, hs']
    by_cases h1 : w.fd < 0
    · have h1' : w'.fd < 0 := hfd.mpr h1
      simp [h1, h1']
    · have h1' : ¬ w'.fd < 0 := fun h => h1 (hfd.mp h)
      simp [h1, h1', hmap]
  by_cases h1 : w.fd < 0
  · have h1n : ¬ 0 ≤ w.fd := by omega
    rw [if_pos h1] at hs
    exact ⟨r, hr, by simp [hs, h1], by simp [hs, h1n], by simp [hs, h1n], by simp [hs], hdet⟩
  · have h1p : 0 ≤ w.fd := by omega
    by_cases h2 : w.mmap_ok = false
    · rw [if_neg h1, if_pos h2] at hs
      exact ⟨r, hr, by simp [hs, h1], by simp [hs, h1p, h2], by simp [hs, h2], by simp [hs], hdet⟩
    · have h2t : w.mmap_ok = true := by simpa using h2
      rw [if_neg h1, if_neg h2] at hs
      exact ⟨r, hr, by simp [hs, h1], by simp [hs, h2t], by simp [hs, h1p, h2t], by simp [hs], hdet⟩

/-- Witness of C10: `open` succeeds with descriptor 3 and `mmap` fails. -/
theorem main_exit_status_witness :
    ∃ r, main (World.mk 0x3F000000 3 false [0, 0, 0]) = some r ∧
      (r.status = 1 ↔ (World.mk 0x3F000000 3 false [0, 0, 0]).fd < 0) ∧
      (r.status = 2 ↔ (0 ≤ (World.mk 0x3F000000 3 false [0, 0, 0]).fd ∧
        (World.mk 0x3F000000 3 false [0, 0, 0]).mmap_ok = false)) ∧
      (r.status = 0 ↔ (0 ≤ (World.mk 0x3F000000 3 false [0, 0, 0]).fd ∧
        (World.mk 0x3F000000 3 false [0, 0, 0]).mmap_ok = true)) ∧
      (r.status = 0 ∨ r.status = 1 ∨ r.status = 2) ∧
      (∀ w' : World, 3 ≤ w'.fsel.length →
        (w'.fd < 0 ↔ (World.mk 0x3F000000 3 false [0, 0, 0]).fd < 0) →
        w'.mmap_ok = (World.mk 0x3F000000 3 false [0, 0, 0]).mmap_ok →
        (main w').map Outcome.status = some r.status) :=
  main_exit_status (World.mk 0x3F000000 3 false [0, 0, 0]) (by decide)

/-! ## Failure paths, function codes outside 0..7, shift range -/

/-- C11 (nothing is configured on failure): when `open` fails, or `open` succeeds
and `mmap` fails, `main` returns a non-zero status, its trace holds no
`set_function` call and the bank is the initial one; when `open` fails the
trace holds no `mmap` attempt either. -/
theorem main_failure_leaves_bank (w : World)
    (hfail : w.fd < 0 ∨ (0 ≤ w.fd ∧ w.mmap_ok = false)) :
    ∃ r, main w = some r ∧ r.fsel = w.fsel ∧ set_function_calls r.trace = [] ∧
      (r.status = 1 ∨ r.status = 2) ∧
      (w.fd < 0 → r.status = 1 ∧ mmap_calls r.trace = []) ∧
      (0 ≤ w.fd → r.status = 2 ∧ mmap_calls r.trace
        = [Event.mmap (16 * 1024 * 1024) w.fd w.arm_phys]) := by
  rcases hfail with hopen | ⟨hopen, hmap⟩
  · have hn : ¬ 0 ≤ w.fd := by omega
    exact ⟨_, main_of_open_failure w hopen, rfl, rfl, Or.inl rfl,
      fun _ => ⟨rfl, rfl⟩, fun h => absurd h hn⟩
  · have hn : ¬ w.fd < 0 := by omega
    exact ⟨_, main_of_mmap_failure w hopen hmap, rfl, rfl, Or.inr rfl,
      fun h => absurd h hn, fun _ => ⟨rfl, rfl⟩⟩

/-- Witness of C11: a failing `open` (descriptor -1) and, with descriptor 3,
a failing `mmap`, both over the bank `[5, 6, 7]`. -/
theorem main_failure_leaves_bank_witness :
    ((-1 : Int) < 0 ∧
      ∃ r, main (World.mk 0x3F000000 (-1) true [5, 6, 7]) = some r ∧ r.fsel = [5, 6, 7] ∧
        set_function_calls r.trace = [] ∧ (r.status = 1 ∨ r.status = 2) ∧
        ((-1 : Int) < 0 → r.status = 1 ∧ mmap_calls r.trace = []) ∧
        ((0 : Int) ≤ -1 → r.status = 2 ∧ mmap_calls r.trace
          = [Event.mmap (16 * 1024 * 1024) (-1) 0x3F000000])) ∧
    ((0 : Int) ≤ 3 ∧
      ∃ r, main (World.mk 0x3F000000 3 false [5, 6, 7]) = some r ∧ r.fsel = [5, 6, 7] ∧
        set_function_calls r.trace = [] ∧ (r.status = 1 ∨ r.status = 2) ∧
        ((3 : Int) < 0 → r.status = 1 ∧ mmap_calls r.trace = []) ∧
        ((0 : Int) ≤ 3 → r.status = 2 ∧ mmap_calls r.trace
          = [Event.mmap (16 * 1024 * 1024) 3 0x3F000000])) :=
  ⟨⟨by decide, main_failure_leaves_bank (World.mk 0x3F000000 (-1) true [5, 6, 7])
      (Or.inl (by decide))⟩,
    ⟨by decide, main_failure_leaves_bank (World.mk 0x3F000000 3 false [5, 6, 7])
      (Or.inr ⟨by decide, rfl⟩)⟩⟩

/-- The result of `set_function` for an arbitrary `int` function code, on a
pin whose word lies in the bank. -/
theorem set_function_eq_int (fsel : List Nat) (p : Nat) (f : Int) (hreg : p / 10 < 256)
    (hin : p / 10 < fsel.length) :
    set_function fsel (p : Int) f
      = some (fsel.set (p / 10)
          ((fsel[p / 10] &&& (2 ^ 32 - (7 * 2 ^ (p % 10 * 3) + 1)))
            ||| to_uint32 (f * 2 ^ (p % 10 * 3)))) := by
  have hs : p % 10 * 3 ≤ 27 := by omega
  unfold set_function
  rw [regnum_natCast p hreg, pin_shift_natCast p]
  have h32 : ¬ 32 ≤ p % 10 * 3 := by omega
  rw [if_neg h32, List.getElem?_eq_getElem hin]
  simp only []
  rw [clear_mask_eq _ hs]

/-- Bits 0..2 of an `int` function code land in the field at the shift. -/
theorem field_at_to_uint32 (f : Int) (k : Nat) (hk : k < 10) :
    field_at (to_uint32 (f * 2 ^ (k * 3))) (k * 3) = (f % 8).toNat := by
  unfold field_at to_uint32
  rw [Nat.shiftRight_eq_div_pow]
  interval_cases k <;> norm_num <;> omega

/-- The field at the shift of a word whose field was cleared before a value
is OR-ed in is the field of that value. -/
theorem field_at_cleared_or (old v s : Nat) (hs : s ≤ 27) :
    field_at ((old &&& (2 ^ 32 - (7 * 2 ^ s + 1))) ||| v) s = field_at v s := by
  apply Nat.eq_of_testBit_eq
  intro j
  rw [testBit_field_at, testBit_field_at, Nat.testBit_or, Nat.testBit_and,
    testBit_clear_mask s (s + j) hs]
  by_cases hj : j < 3
  · have h1 : s ≤ s + j := by omega
    have h2 : s + j < s + 3 := by omega
    simp [hj, h1, h2]
  · simp [hj]

/-- C12, counterexample: on the zero bank `set_function(0, 8)` stores 8 in
word 0, which sets bit 3 (the field of pin 1 reads 1), whereas
`set_function(0, 8 mod 8)` leaves the word at 0. -/
theorem set_function_code_8_reaches_pin_1 :
    set_function [0, 0, 0] 0 8 = some [8, 0, 0] ∧
    set_function [0, 0, 0] 0 (8 % 8) = some [0, 0, 0] ∧
    set_function [0, 0, 0] 0 8 ≠ set_function [0, 0, 0] 0 (8 % 8) ∧
    pin_field [8, 0, 0] 1 = some 1 ∧ pin_field [0, 0, 0] 1 = some 0 := by
  decide

theorem low_bits_lt (f : Int) (n : Nat) : low_bits f n < 2 ^ n := by
  unfold low_bits
  have hc : ((2 : Int) ^ n) = ((2 ^ n : Nat) : Int) := by push_cast; rfl
  have hpos : 0 < 2 ^ n := Nat.two_pow_pos n
  rw [hc]
  have hlt : f % ((2 ^ n : Nat) : Int) < ((2 ^ n : Nat) : Int) :=
    Int.emod_lt_of_pos f (by omega)
  have hnn : 0 ≤ f % ((2 ^ n : Nat) : Int) := Int.emod_nonneg f (by omega)
  generalize f % ((2 ^ n : Nat) : Int) = z at hlt hnn
  omega

/-- The `uint32_t` value of `function << s` for an arbitrary `int`: the low
`32 - s` bits of `function`, moved up by `s`. -/
theorem to_uint32_shift_low_bits (f : Int) (k : Nat) (hk : k < 10) :
    to_uint32 (f * 2 ^ (k * 3)) = low_bits f (32 - k * 3) <<< (k * 3) := by
  unfold to_uint32 low_bits
  rw [Nat.shiftLeft_eq]
  interval_cases k <;> norm_num <;> omega

theorem low_bits_mod_eight (f : Int) (k : Nat) (hk : k < 10) :
    (f % 8).toNat = low_bits f (32 - k * 3) % 8 := by
  unfold low_bits
  interval_cases k <;> norm_num <;> omega

/-- The bits of a word whose field at `s` was cleared before `r << s` is
OR-ed in, for `r` of at most `32 - s` bits. -/
theorem testBit_cleared_or_shift (old r s i : Nat) (hs : s ≤ 27) (hr : r < 2 ^ (32 - s)) :
    ((old &&& (2 ^ 32 - (7 * 2 ^ s + 1))) ||| (r <<< s)).testBit i
      = if s ≤ i ∧ i < s + 3 then r.testBit (i - s)
        else if s + 3 ≤ i ∧ i < 32 then (old.testBit i || r.testBit (i - s))
        else (decide (i < 32) && old.testBit i) := by
  rw [Nat.testBit_or, Nat.testBit_and, testBit_clear_mask s i hs, Nat.testBit_shiftLeft]
  by_cases h1 : s ≤ i ∧ i < s + 3
  · have ha : s ≤ i := h1.1
    have hb : i < s + 3 := h1.2
    have hc : i < 32 := by omega
    have hd : i ≥ s := h1.1
    simp [h1, ha, hb, hc, hd]
  · by_cases h2 : s + 3 ≤ i ∧ i < 32
    · have ha : s ≤ i := by omega
      have hb : ¬ i < s + 3 := by omega
      have hc : i < 32 := h2.2
      have hd : i ≥ s := ha
      simp [h1, h2, ha, hb, hc, hd]
    · by_cases h3 : i < s
      · have ha : ¬ s ≤ i := by omega
        have hc : i < 32 := by omega
        have hd : ¬ i ≥ s := ha
        rw [if_neg h1, if_neg h2]
        simp [ha, hc, hd]
      · have hc : ¬ i < 32 := by omega
        have h0 : r.testBit (i - s) = false := by
          apply Nat.testBit_lt_two_pow
          calc r < 2 ^ (32 - s) := hr
            _ ≤ 2 ^ (i - s) := Nat.pow_le_pow_right (by decide) (by omega)
        rw [if_neg h1, if_neg h2]
        simp [hc, h0]

/-- The word written with the code reduced modulo 8 is the word written with
the code itself exactly when every bit of the code above bit 2 lands on a bit
of the old word that is already set. -/
theorem update_word_mod_eq_iff (old r s : Nat) (hs : s ≤ 27) (hr : r < 2 ^ (32 - s)) :
    update_word old s (r % 8) = (old &&& (2 ^ 32 - (7 * 2 ^ s + 1))) ||| (r <<< s)
      ↔ ∀ i, s + 3 ≤ i → i < 32 → r.testBit (i - s) = true → old.testBit i = true := by
  have h8 : r % 8 < 8 := Nat.mod_lt _ (by decide)
  have hmod : ∀ j, (r % 8).testBit j = (decide (j < 3) && r.testBit j) :=
    fun j => Nat.testBit_mod_two_pow r 3 j
  constructor
  · intro h i h1 h2 hb
    have hi : (update_word old s (r % 8)).testBit i
        = ((old &&& (2 ^ 32 - (7 * 2 ^ s + 1))) ||| (r <<< s)).testBit i := by rw [h]
    have hout : ¬ (s ≤ i ∧ i < s + 3) := by omega
    rw [testBit_update_word _ _ _ _ hs h8, testBit_cleared_or_shift old r s i hs hr,
      if_neg hout, if_neg hout, if_pos ⟨h1, h2⟩] at hi
    simp [h2, hb] at hi
    exact hi
  · intro h
    apply Nat.eq_of_testBit_eq
    intro i
    rw [testBit_update_word _ _ _ _ hs h8, testBit_cleared_or_shift old r s i hs hr]
    by_cases h1 : s ≤ i ∧ i < s + 3
    · have h3 : i - s < 3 := by omega
      rw [if_pos h1, if_pos h1, hmod]
      simp [h3]
    · rw [if_neg h1, if_neg h1]
      by_cases h2 : s + 3 ≤ i ∧ i < 32
      · rw [if_pos h2]
        cases hb : r.testBit (i - s) with
        | false => simp [h2.2]
        | true => simp [h2.2, h i h2.1 h2.2 hb]
      · rw [if_neg h2]

/-- C12, amended: for a pin `p` whose register index is below 256 and inside
the bank (`s = (p % 10) * 3`) and every integer function code `f`,
`set_function(p, f)` writes word `p / 10` as
`(old AND NOT (7 << s)) OR ((f mod 2^(32-s)) << s)` in 32 bits and leaves the
other words as they were. The field of `p` reads `f mod 8`, the bits below
`s` are the old ones, and every bit `i` with `s + 3 <= i < 32` is the old bit
OR bit `i - s` of `f`: the bits of `f` above bit 2 are not masked. The bank
is the one `set_function(p, f mod 8)` returns exactly when each such set bit
of `f` falls on a bit of the old word that is already 1. -/
theorem set_function_low_bits (fsel : List Nat) (p : Nat) (f : Int) (hreg : p / 10 < 256)
    (hin : p / 10 < fsel.length) :
    ∃ fsel', set_function fsel (p : Int) f = some fsel' ∧
      fsel'[p / 10]? = some ((fsel[p / 10] &&& (0xFFFFFFFF ^^^ (7 <<< (p % 10 * 3))))
        ||| (low_bits f (32 - p % 10 * 3) <<< (p % 10 * 3))) ∧
      pin_field fsel' p = some (f % 8).toNat ∧
      (∀ j, j ≠ p / 10 → fsel'[j]? = fsel[j]?) ∧
      (∀ i, i < p % 10 * 3 → word_bit fsel' (p / 10) i = some (fsel[p / 10].testBit i)) ∧
      (∀ i, p % 10 * 3 + 3 ≤ i → i < 32 →
        word_bit fsel' (p / 10) i
          = some (fsel[p / 10].testBit i
              || (low_bits f (32 - p % 10 * 3)).testBit (i - p % 10 * 3))) ∧
      (set_function fsel (p : Int) (f % 8) = some fsel' ↔
        ∀ i, p % 10 * 3 + 3 ≤ i → i < 32 →
          (low_bits f (32 - p % 10 * 3)).testBit (i - p % 10 * 3) = true →
          fsel[p / 10].testBit i = true) := by
  have hs : p % 10 * 3 ≤ 27 := by omega
  have hk : p % 10 < 10 := by omega
  have hr := low_bits_lt f (32 - p % 10 * 3)
  have hrun := set_function_eq_int fsel p f hreg hin
  rw [to_uint32_shift_low_bits f (p % 10) hk] at hrun
  have hbit : ∀ i, word_bit (fsel.set (p / 10)
        ((fsel[p / 10] &&& (2 ^ 32 - (7 * 2 ^ (p % 10 * 3) + 1)))
          ||| (low_bits f (32 - p % 10 * 3) <<< (p % 10 * 3)))) (p / 10) i
      = some (((fsel[p / 10] &&& (2 ^ 32 - (7 * 2 ^ (p % 10 * 3) + 1)))
          ||| (low_bits f (32 - p % 10 * 3) <<< (p % 10 * 3))).testBit i) := by
    intro i
    unfold word_bit
    rw [List.getElem?_set_self hin]
    rfl
  refine ⟨_, hrun, ?_, ?_, ?_, ?_, ?_, ?_⟩
  · rw [List.getElem?_set_self hin, clear_mask_eq_xor _ hs]
  · rw [pin_field_set_same _ _ _ hin, field_at_cleared_or _ _ _ hs,
      ← to_uint32_shift_low_bits f (p % 10) hk, field_at_to_uint32 f (p % 10) hk]
  · intro j hj
    rw [List.getElem?_set_ne (Ne.symm hj)]
  · intro i hi
    have h1 : ¬ (p % 10 * 3 ≤ i ∧ i < p % 10 * 3 + 3) := by omega
    have h2 : ¬ (p % 10 * 3 + 3 ≤ i ∧ i < 32) := by omega
    have h32 : i < 32 := by omega
    rw [hbit, testBit_cleared_or_shift _ _ _ i hs hr, if_neg h1, if_neg h2]
    simp [h32]
  · intro i hi1 hi2
    have h1 : ¬ (p % 10 * 3 ≤ i ∧ i < p % 10 * 3 + 3) := by omega
    rw [hbit, testBit_cleared_or_shift _ _ _ i hs hr, if_neg h1, if_pos ⟨hi1, hi2⟩]
  · have h8 : (f % 8).toNat < 8 := by omega
    have hcast : f % 8 = (((f % 8).toNat : Nat) : Int) := by omega
    have hrun8 := set_function_eq fsel p (f % 8).toNat hreg hin h8
    rw [← hcast, low_bits_mod_eight f (p % 10) hk] at hrun8
    rw [hrun8, ← update_word_mod_eq_iff fsel[p / 10] _ _ hs hr]
    constructor
    · intro h
      have hw := congrArg (fun l : List Nat => l[p / 10]?) (Option.some.inj h)
      simp only [List.getElem?_set_self hin] at hw
      exact Option.some.inj hw
    · intro h
      rw [h]

/-- Witness of the amended C12: pin 13 (shift 9) of the zero bank with
function code 14: the low three bits, 6, are the field of pin 13, and bit 3
of the code is OR-ed into bit 12, the field of pin 14. -/
theorem set_function_low_bits_witness :
    ∃ fsel', set_function [0, 0, 0] ((13 : Nat) : Int) 14 = some fsel' ∧
      fsel'[13 / 10]? = some (([0, 0, 0][13 / 10] &&& (0xFFFFFFFF ^^^ (7 <<< (13 % 10 * 3))))
        ||| (low_bits 14 (32 - 13 % 10 * 3) <<< (13 % 10 * 3))) ∧
      pin_field fsel' 13 = some ((14 : Int) % 8).toNat ∧
      (∀ j, j ≠ 13 / 10 → fsel'[j]? = [0, 0, 0][j]?) ∧
      (∀ i, i < 13 % 10 * 3 →
        word_bit fsel' (13 / 10) i = some ([0, 0, 0][13 / 10].testBit i)) ∧
      (∀ i, 13 % 10 * 3 + 3 ≤ i → i < 32 →
        word_bit fsel' (13 / 10) i
          = some ([0, 0, 0][13 / 10].testBit i
              || (low_bits 14 (32 - 13 % 10 * 3)).testBit (i - 13 % 10 * 3))) ∧
      (set_function [0, 0, 0] ((13 : Nat) : Int) (14 % 8) = some fsel' ↔
        ∀ i, 13 % 10 * 3 + 3 ≤ i → i < 32 →
          (low_bits 14 (32 - 13 % 10 * 3)).testBit (i - 13 % 10 * 3) = true →
          [0, 0, 0][13 / 10].testBit i = true) :=
  set_function_low_bits [0, 0, 0] 13 14 (by decide) (by decide)

/-- C16 (shift range): for every pin index `p >= 0` and function code `f` in
0..7 the shift is `(p % 10) * 3`, one of 0, 3, ..., 27, and equals the `int`
value before its conversion to `uint8_t`; `0x7 << pin_shift` and
`f << pin_shift` are non-negative and at most `0x38000000`, which is below
`2^31`, so their conversion to `uint32_t` changes nothing and bits 30 and 31
of both are 0. -/
theorem pin_shift_in_range (p f : Nat) (hf : f < 8) :
    pin_shift (p : Int) = p % 10 * 3 ∧
    pin_shift (p : Int) ∈ [0, 3, 6, 9, 12, 15, 18, 21, 24, 27] ∧
    ((pin_shift (p : Int) : Nat) : Int) = Int.tmod (p : Int) 10 * 3 ∧
    (0 ≤ (0x7 : Int) * 2 ^ pin_shift (p : Int) ∧
      (0x7 : Int) * 2 ^ pin_shift (p : Int) ≤ 0x38000000) ∧
    (0 ≤ (f : Int) * 2 ^ pin_shift (p : Int) ∧
      (f : Int) * 2 ^ pin_shift (p : Int) ≤ 0x38000000) ∧
    (0x38000000 : Int) < 2 ^ 31 ∧
    to_uint32 ((0x7 : Int) * 2 ^ pin_shift (p : Int)) = 7 * 2 ^ pin_shift (p : Int) ∧
    to_uint32 ((f : Int) * 2 ^ pin_shift (p : Int)) = f * 2 ^ pin_shift (p : Int) ∧
    (7 * 2 ^ pin_shift (p : Int)).testBit 30 = false ∧
    (7 * 2 ^ pin_shift (p : Int)).testBit 31 = false ∧
    (f * 2 ^ pin_shift (p : Int)).testBit 30 = false ∧
    (f * 2 ^ pin_shift (p : Int)).testBit 31 = false := by
  have hs : p % 10 * 3 ≤ 27 := by omega
  have h2 := two_pow_le_of_le_27 _ hs
  have hpos : 0 < 2 ^ (p % 10 * 3) := Nat.two_pow_pos _
  have hmod : Int.tmod (p : Int) 10 = ((p % 10 : Nat) : Int) := (Int.ofNat_tmod p 10).symm
  have hc : ((2 : Int) ^ (p % 10 * 3)) = ((2 ^ (p % 10 * 3) : Nat) : Int) := by push_cast; rfl
  have h7 : 7 * 2 ^ (p % 10 * 3) < 2 ^ 30 := by
    calc 7 * 2 ^ (p % 10 * 3) ≤ 7 * 134217728 := Nat.mul_le_mul (Nat.le_refl 7) h2
      _ < 2 ^ 30 := by norm_num
  have hfb : f * 2 ^ (p % 10 * 3) ≤ 7 * 2 ^ (p % 10 * 3) :=
    Nat.mul_le_mul (by omega) (Nat.le_refl _)
  have hf30 : f * 2 ^ (p % 10 * 3) < 2 ^ 30 := Nat.lt_of_le_of_lt hfb h7
  have h3031 : (2 : Nat) ^ 30 ≤ 2 ^ 31 := by norm_num
  have hv7 := value_eq 7 (p % 10 * 3) (by decide) hs
  have hvf := value_eq f (p % 10 * 3) hf hs
  rw [Nat.shiftLeft_eq] at hv7 hvf
  have hm : (f : Int) * ((2 ^ (p % 10 * 3) : Nat) : Int)
      = ((f * 2 ^ (p % 10 * 3) : Nat) : Int) := by push_cast; rfl
  have h7n : (7 : Nat) * 2 ^ (p % 10 * 3) ≤ 939524096 := by
    calc 7 * 2 ^ (p % 10 * 3) ≤ 7 * 134217728 := Nat.mul_le_mul (Nat.le_refl 7) h2
      _ = 939524096 := by norm_num
  rw [pin_shift_natCast p]
  refine ⟨rfl, ?_, ?_, ⟨?_, ?_⟩, ⟨?_, ?_⟩, by norm_num, hv7, hvf,
    Nat.testBit_lt_two_pow h7, Nat.testBit_lt_two_pow (Nat.lt_of_lt_of_le h7 h3031),
    Nat.testBit_lt_two_pow hf30, Nat.testBit_lt_two_pow (Nat.lt_of_lt_of_le hf30 h3031)⟩
  · have hk : p % 10 < 10 := Nat.mod_lt _ (by decide)
    generalize p % 10 = k at hk
    interval_cases k <;> decide
  · rw [hmod]; push_cast; rfl
  · rw [hc]; omega
  · rw [hc]
    generalize 2 ^ (p % 10 * 3) = t at h2
    omega
  · rw [hc, hm]; omega
  · rw [hc, hm]
    generalize f * 2 ^ (p % 10 * 3) = t at hfb h7n
    generalize 7 * 2 ^ (p % 10 * 3) = u at hfb h7n
    omega

/-- Witness of C16: pin 29 (shift 27) with function code 7, the largest
value either shift can produce. -/
theorem pin_shift_in_range_witness :
    pin_shift ((29 : Nat) : Int) = 29 % 10 * 3 ∧
    pin_shift ((29 : Nat) : Int) ∈ [0, 3, 6, 9, 12, 15, 18, 21, 24, 27] ∧
    ((pin_shift ((29 : Nat) : Int) : Nat) : Int) = Int.tmod ((29 : Nat) : Int) 10 * 3 ∧
    (0 ≤ (0x7 : Int) * 2 ^ pin_shift ((29 : Nat) : Int) ∧
      (0x7 : Int) * 2 ^ pin_shift ((29 : Nat) : Int) ≤ 0x38000000) ∧
    (0 ≤ ((7 : Nat) : Int) * 2 ^ pin_shift ((29 : Nat) : Int) ∧
      ((7 : Nat) : Int) * 2 ^ pin_shift ((29 : Nat) : Int) ≤ 0x38000000) ∧
    (0x38000000 : Int) < 2 ^ 31 ∧
    to_uint32 ((0x7 : Int) * 2 ^ pin_shift ((29 : Nat) : Int))
      = 7 * 2 ^ pin_shift ((29 : Nat) : Int) ∧
    to_uint32 (((7 : Nat) : Int) * 2 ^ pin_shift ((29 : Nat) : Int))
      = 7 * 2 ^ pin_shift ((29 : Nat) : Int) ∧
    (7 * 2 ^ pin_shift ((29 : Nat) : Int)).testBit 30 = false ∧
    (7 * 2 ^ pin_shift ((29 : Nat) : Int)).testBit 31 = false ∧
    (7 * 2 ^ pin_shift ((29 : Nat) : Int)).testBit 30 = false ∧
    (7 * 2 ^ pin_shift ((29 : Nat) : Int)).testBit 31 = false :=
  pin_shift_in_range 29 7 (by decide)

/-! ## The algebra of pin writes -/

theorem getD_set_self (fsel : List Nat) (k v : Nat) (hk : k < fsel.length) :
    (fsel.set k v).getD k 0 = v := by
  rw [List.getD_eq_getElem?_getD, List.getElem?_set_self hk]
  rfl

theorem getD_set_ne (fsel : List Nat) (k j v : Nat) (hne : k ≠ j) :
    (fsel.set k v).getD j 0 = fsel.getD j 0 := by
  rw [List.getD_eq_getElem?_getD, List.getD_eq_getElem?_getD, List.getElem?_set_ne hne]

theorem getD_of_lt (fsel : List Nat) (k : Nat) (hk : k < fsel.length) :
    fsel.getD k 0 = fsel[k] := by
  rw [List.getD_eq_getElem?_getD, List.getElem?_eq_getElem hk]
  rfl

theorem write_pin_length (f : Nat) (fsel : List Nat) (p : Nat) :
    (write_pin f fsel p).length = fsel.length := by
  unfold write_pin
  rw [List.length_set]

theorem write_pins_length (f : Nat) (ps : List Nat) (fsel : List Nat) :
    (write_pins f ps fsel).length = fsel.length := by
  induction ps generalizing fsel with
  | nil => rfl
  | cons p ps ih =>
    show (write_pins f ps (write_pin f fsel p)).length = fsel.length
    rw [ih, write_pin_length]

theorem write_pins_cons (f p : Nat) (ps : List Nat) (fsel : List Nat) :
    write_pins f (p :: ps) fsel = write_pins f ps (write_pin f fsel p) := rfl

/-- On a pin whose word lies in the bank `set_function` returns `write_pin`. -/
theorem set_function_eq_write_pin (fsel : List Nat) (p f : Nat) (hreg : p / 10 < 256)
    (hin : p / 10 < fsel.length) (hf : f < 8) :
    set_function fsel (p : Int) (f : Int) = some (write_pin f fsel p) := by
  rw [set_function_eq fsel p f hreg hin hf]
  unfold write_pin
  rw [getD_of_lt fsel _ hin]

theorem set_pins_bank_eq_write_pins (f : Nat) (hf : f < 8) (ps : List Nat) (fsel : List Nat)
    (h : ∀ p ∈ ps, p / 10 < 256 ∧ p / 10 < fsel.length) :
    set_pins_bank (f : Int) ps fsel = some (write_pins f ps fsel) := by
  induction ps generalizing fsel with
  | nil => rfl
  | cons p ps ih =>
    obtain ⟨hreg, hin⟩ := h p (List.mem_cons_self p ps)
    unfold set_pins_bank
    rw [set_function_eq_write_pin fsel p f hreg hin hf, write_pins_cons]
    apply ih
    intro q hq
    rw [write_pin_length]
    exact h q (List.mem_cons_of_mem p hq)

/-- Writes to two disjoint fields of one word commute. -/
theorem update_word_comm (old s t f g : Nat) (hs : s ≤ 27) (ht : t ≤ 27) (hf : f < 8)
    (hg : g < 8) (hdisj : s + 3 ≤ t ∨ t + 3 ≤ s) :
    update_word (update_word old s f) t g = update_word (update_word old t g) s f := by
  apply Nat.eq_of_testBit_eq
  intro i
  rw [testBit_update_word _ t g i ht hg, testBit_update_word old s f i hs hf,
    testBit_update_word _ s f i hs hf, testBit_update_word old t g i ht hg]
  by_cases h1 : s ≤ i ∧ i < s + 3
  · have h2 : ¬ (t ≤ i ∧ i < t + 3) := by omega
    have h32 : i < 32 := by omega
    simp [h1, h2, h32]
  · by_cases h2 : t ≤ i ∧ i < t + 3
    · have h32 : i < 32 := by omega
      simp [h1, h2, h32]
    · simp [h1, h2]

/-- Writes to two distinct pins commute. -/
theorem write_pin_comm (fsel : List Nat) (p q f g : Nat) (hne : p ≠ q) (hf : f < 8)
    (hg : g < 8) (hpin : p / 10 < fsel.length) :
    write_pin g (write_pin f fsel p) q = write_pin f (write_pin g fsel q) p := by
  unfold write_pin
  by_cases hw : p / 10 = q / 10
  · rw [← hw, getD_set_self _ _ _ hpin, getD_set_self _ _ _ hpin, List.set_set, List.set_set,
      update_word_comm _ _ _ _ _ (by omega) (by omega) hf hg (by omega)]
  · rw [getD_set_ne _ _ _ _ hw, getD_set_ne _ _ _ _ (Ne.symm hw), List.set_comm _ _ _ hw]

/-- Writing the same pin twice with one code is writing it once. -/
theorem write_pin_idem (fsel : List Nat) (p f : Nat) (hf : f < 8)
    (hpin : p / 10 < fsel.length) :
    write_pin f (write_pin f fsel p) p = write_pin f fsel p := by
  unfold write_pin
  rw [getD_set_self _ _ _ hpin, List.set_set,
    update_word_update_word _ _ _ _ (by omega) hf hf]

/-- A write to a pin that the list visits anyway is absorbed by the list. -/
theorem write_pins_absorb (f : Nat) (hf : f < 8) (ps : List Nat) (fsel : List Nat) (p : Nat)
    (hp : p ∈ ps) (h : ∀ q ∈ ps, q / 10 < fsel.length) :
    write_pins f ps (write_pin f fsel p) = write_pins f ps fsel := by
  induction ps generalizing fsel with
  | nil => cases hp
  | cons q qs ih =>
    have hqin : q / 10 < fsel.length := h q (List.mem_cons_self q qs)
    have hpin : p / 10 < fsel.length := h p hp
    rw [write_pins_cons, write_pins_cons]
    by_cases hpq : p = q
    · rw [hpq, write_pin_idem fsel q f hf hqin]
    · have hp' : p ∈ qs := by
        cases hp with
        | head => exact absurd rfl hpq
        | tail _ h' => exact h'
      rw [write_pin_comm fsel p q f f hpq hf hf hpin]
      apply ih _ hp'
      intro r hr
      rw [write_pin_length]
      exact h r (List.mem_cons_of_mem q hr)

/-- Visiting a list of pins after a sublist of it has been visited gives
the bank of visiting the list alone. -/
theorem write_pins_after (f : Nat) (hf : f < 8) (ps qs : List Nat) (fsel : List Nat)
    (hsub : ∀ q ∈ qs, q ∈ ps) (h : ∀ q ∈ ps, q / 10 < fsel.length) :
    write_pins f ps (write_pins f qs fsel) = write_pins f ps fsel := by
  induction qs generalizing fsel with
  | nil => rfl
  | cons q qs ih =>
    rw [write_pins_cons, ih (write_pin f fsel q) (fun r hr => hsub r (List.mem_cons_of_mem q hr))
      (by intro r hr; rw [write_pin_length]; exact h r hr)]
    exact write_pins_absorb f hf ps fsel q (hsub q (List.mem_cons_self q qs)) h

/-- The bank after visiting a list of pins does not depend on the order. -/
theorem write_pins_perm (f : Nat) (hf : f < 8) (ps qs : List Nat) (hperm : List.Perm ps qs)
    (fsel : List Nat) (h : ∀ q ∈ ps, q / 10 < fsel.length) :
    write_pins f ps fsel = write_pins f qs fsel := by
  induction hperm generalizing fsel with
  | nil => rfl
  | cons x _ ih =>
    rw [write_pins_cons, write_pins_cons]
    apply ih
    intro r hr
    rw [write_pin_length]
    exact h r (List.mem_cons_of_mem x hr)
  | swap x y l =>
    rw [write_pins_cons, write_pins_cons, write_pins_cons, write_pins_cons]
    by_cases hxy : y = x
    · rw [hxy]
    · rw [write_pin_comm fsel y x f f hxy hf hf (h y (by simp))]
  | trans h1 _ ih1 ih2 =>
    rw [ih1 fsel h]
    apply ih2
    intro r hr
    exact h r (h1.mem_iff.mpr hr)

/-! ## Fields and bits after a list of pin writes -/

theorem pin_field_write_pin_same (fsel : List Nat) (p f : Nat) (hf : f < 8)
    (hpin : p / 10 < fsel.length) :
    pin_field (write_pin f fsel p) p = some f := by
  unfold write_pin
  rw [pin_field_set_same _ _ _ hpin, field_at_update_word_same _ _ _ (by omega) hf]

theorem pin_field_write_pin_ne (fsel : List Nat) (p q f : Nat) (hne : p ≠ q) (hf : f < 8)
    (hpin : p / 10 < fsel.length) :
    pin_field (write_pin f fsel p) q = pin_field fsel q := by
  unfold write_pin
  rw [getD_of_lt fsel _ hpin]
  exact pin_field_set_function fsel p q f hpin hne hf

theorem pin_field_write_pins_not_mem (f : Nat) (hf : f < 8) (ps : List Nat) (fsel : List Nat)
    (q : Nat) (hq : q ∉ ps) (h : ∀ p ∈ ps, p / 10 < fsel.length) :
    pin_field (write_pins f ps fsel) q = pin_field fsel q := by
  induction ps generalizing fsel with
  | nil => rfl
  | cons p ps ih =>
    have hne : p ≠ q := fun e => hq (by rw [e]; exact List.mem_cons_self q ps)
    have hq' : q ∉ ps := fun e => hq (List.mem_cons_of_mem p e)
    rw [write_pins_cons, ih (write_pin f fsel p) hq' (by
      intro r hr
      rw [write_pin_length]
      exact h r (List.mem_cons_of_mem p hr))]
    exact pin_field_write_pin_ne fsel p q f hne hf (h p (List.mem_cons_self p ps))

theorem pin_field_write_pins_mem (f : Nat) (hf : f < 8) (ps : List Nat) (fsel : List Nat)
    (q : Nat) (hq : q ∈ ps) (h : ∀ p ∈ ps, p / 10 < fsel.length) :
    pin_field (write_pins f ps fsel) q = some f := by
  induction ps generalizing fsel with
  | nil => cases hq
  | cons p ps ih =>
    have hrest : ∀ r ∈ ps, r / 10 < (write_pin f fsel p).length := by
      intro r hr
      rw [write_pin_length]
      exact h r (List.mem_cons_of_mem p hr)
    rw [write_pins_cons]
    by_cases hmem : q ∈ ps
    · exact ih (write_pin f fsel p) hmem hrest
    · have hqp : q = p := by
        cases hq with
        | head => rfl
        | tail _ h' => exact absurd h' hmem
      rw [pin_field_write_pins_not_mem f hf ps _ q hmem hrest, hqp]
      exact pin_field_write_pin_same fsel p f hf (h p (List.mem_cons_self p ps))

theorem words32_write_pin (f : Nat) (hf : f < 8) (fsel : List Nat) (p : Nat)
    (hw : words32 fsel) : words32 (write_pin f fsel p) := by
  intro w hmem
  unfold write_pin at hmem
  rcases List.mem_or_eq_of_mem_set hmem with h | h
  · exact hw w h
  · rw [h]
    have h32 : (2 : Nat) ^ 32 = 4294967296 := by norm_num
    rw [← h32]
    exact update_word_lt (fsel.getD (p / 10) 0) (p % 10 * 3) f (by omega) hf

theorem word_bit_write_pin (f : Nat) (hf : f < 8) (fsel : List Nat) (p j i : Nat)
    (hw : words32 fsel) (hpin : p / 10 < fsel.length)
    (hout : ¬ (j = p / 10 ∧ p % 10 * 3 ≤ i ∧ i < p % 10 * 3 + 3)) :
    word_bit (write_pin f fsel p) j i = word_bit fsel j i := by
  unfold word_bit write_pin
  by_cases hj : p / 10 = j
  · subst hj
    rw [List.getElem?_set_self hpin, List.getElem?_eq_getElem hpin, getD_of_lt fsel _ hpin]
    simp only [Option.map_some']
    congr 1
    rw [testBit_update_word _ _ _ _ (by omega) hf]
    have hout' : ¬ (p % 10 * 3 ≤ i ∧ i < p % 10 * 3 + 3) := fun h => hout ⟨rfl, h⟩
    rw [if_neg hout']
    exact testBit_word32 _ _ (hw _ (List.getElem_mem hpin))
  · rw [List.getElem?_set_ne hj]

theorem word_bit_write_pins (f : Nat) (hf : f < 8) (ps : List Nat) (fsel : List Nat)
    (j i : Nat) (hw : words32 fsel) (h : ∀ p ∈ ps, p / 10 < fsel.length)
    (hout : ¬ ∃ p ∈ ps, j = p / 10 ∧ p % 10 * 3 ≤ i ∧ i < p % 10 * 3 + 3) :
    word_bit (write_pins f ps fsel) j i = word_bit fsel j i := by
  induction ps generalizing fsel with
  | nil => rfl
  | cons p ps ih =>
    rw [write_pins_cons, ih (write_pin f fsel p) (words32_write_pin f hf fsel p hw)
      (by
        intro r hr
        rw [write_pin_length]
        exact h r (List.mem_cons_of_mem p hr))
      (fun ⟨r, hr, hb⟩ => hout ⟨r, List.mem_cons_of_mem p hr, hb⟩)]
    exact word_bit_write_pin f hf fsel p j i hw (h p (List.mem_cons_self p ps))
      (fun hb => hout ⟨p, List.mem_cons_self p ps, hb⟩)

theorem getElem?_write_pins (f : Nat) (ps : List Nat) (fsel : List Nat) (j : Nat)
    (hj : ∀ p ∈ ps, p / 10 ≠ j) :
    (write_pins f ps fsel)[j]? = fsel[j]? := by
  induction ps generalizing fsel with
  | nil => rfl
  | cons p ps ih =>
    rw [write_pins_cons, ih (write_pin f fsel p) (fun r hr => hj r (List.mem_cons_of_mem p hr))]
    unfold write_pin
    rw [List.getElem?_set_ne (hj p (List.mem_cons_self p ps))]

theorem driver_pins_lt (fsel : List Nat) (h3 : 3 ≤ fsel.length) :
    ∀ p ∈ driver_pins, p / 10 < fsel.length :=
  fun p hp => (driver_pins_in_bank fsel h3 p hp).2

/-- The bank left by the three loops of `main` is `write_pins` over the
pins of the loops. -/
theorem set_pins_bank_driver (fsel : List Nat) (h3 : 3 ≤ fsel.length) :
    set_pins_bank kBCM2708Pinmux_ALT2 driver_pins fsel
      = some (write_pins 6 driver_pins fsel) :=
  set_pins_bank_eq_write_pins 6 (by decide) driver_pins fsel (driver_pins_in_bank fsel h3)

theorem driver_sequence_write_pins (fsel : List Nat) (t : List Event) (h3 : 3 ≤ fsel.length) :
    ∃ m', driver_sequence (Machine.mk fsel t) = some m' ∧
      m'.fsel = write_pins 6 driver_pins fsel := by
  have hd := driver_sequence_fsel fsel t
  rw [set_pins_bank_driver fsel h3] at hd
  cases hm : driver_sequence (Machine.mk fsel t) with
  | none => rw [hm] at hd; cases hd
  | some m' =>
    rw [hm] at hd
    exact ⟨m', rfl, by simpa using hd⟩

theorem main_fsel_write_pins (a fd : Nat) (fsel : List Nat) (h3 : 3 ≤ fsel.length) :
    (main (World.mk a (fd : Int) true fsel)).map Outcome.fsel
      = some (write_pins 6 driver_pins fsel) := by
  rw [main_fsel_of_success, set_pins_bank_driver fsel h3]

/-! ## The claims on the whole driver sequence -/

/-- C13 (driver postcondition): for every initial bank of at least three
32-bit words, the three loops of `main` return a bank of the same length in
which the field of each of the 22 pins 0-9, 12-17, 20-25 reads 6 and every
bit outside those fields is as before: the fields of pins 10, 11, 18, 19 and
26-29, bits 30 and 31 of every word, and all words of index 3 or more. The
successful path of `main` leaves that bank. -/
theorem driver_sequence_postcondition (fsel : List Nat) (t : List Event)
    (h3 : 3 ≤ fsel.length) (hw : words32 fsel) :
    ∃ m', driver_sequence (Machine.mk fsel t) = some m' ∧
      m'.fsel.length = fsel.length ∧
      (∀ p ∈ driver_pins, pin_field m'.fsel p = some 6) ∧
      (∀ j i, ¬ (∃ p ∈ driver_pins, j = p / 10 ∧ p % 10 * 3 ≤ i ∧ i < p % 10 * 3 + 3) →
        word_bit m'.fsel j i = word_bit fsel j i) ∧
      (∀ q ∈ [10, 11, 18, 19, 26, 27, 28, 29], pin_field m'.fsel q = pin_field fsel q) ∧
      (∀ j, word_bit m'.fsel j 30 = word_bit fsel j 30 ∧
        word_bit m'.fsel j 31 = word_bit fsel j 31) ∧
      (∀ j, 3 ≤ j → m'.fsel[j]? = fsel[j]?) ∧
      (∀ a fd : Nat, (main (World.mk a (fd : Int) true fsel)).map Outcome.fsel
        = some m'.fsel) := by
  obtain ⟨m', hrun, hfsel⟩ := driver_sequence_write_pins fsel t h3
  have hin := driver_pins_lt fsel h3
  have hbits : ∀ j i,
      ¬ (∃ p ∈ driver_pins, j = p / 10 ∧ p % 10 * 3 ≤ i ∧ i < p % 10 * 3 + 3) →
      word_bit m'.fsel j i = word_bit fsel j i := by
    intro j i hout
    rw [hfsel]
    exact word_bit_write_pins 6 (by decide) driver_pins fsel j i hw hin hout
  refine ⟨m', hrun, ?_, ?_, hbits, ?_, ?_, ?_, ?_⟩
  · rw [hfsel, write_pins_length]
  · intro p hp
    rw [hfsel]
    exact pin_field_write_pins_mem 6 (by decide) driver_pins fsel p hp hin
  · intro q hq
    have hnot : q ∉ driver_pins := by
      revert q
      decide
    rw [hfsel]
    exact pin_field_write_pins_not_mem 6 (by decide) driver_pins fsel q hnot hin
  · intro j
    constructor
    · apply hbits
      rintro ⟨p, _, _, h1, h2⟩
      omega
    · apply hbits
      rintro ⟨p, _, _, h1, h2⟩
      omega
  · intro j hj
    rw [hfsel]
    apply getElem?_write_pins
    intro p hp
    have hlt : p / 10 < 3 := by
      revert p
      decide
    omega
  · intro a fd
    rw [hfsel]
    exact main_fsel_write_pins a fd fsel h3

/-- Witness of C13: a four-word bank with arbitrary contents. -/
theorem driver_sequence_postcondition_witness :
    ∃ m', driver_sequence (Machine.mk [0xFFFFFFFF, 0x12345678, 0, 0xDEADBEEF] []) = some m' ∧
      m'.fsel.length = [0xFFFFFFFF, 0x12345678, 0, 0xDEADBEEF].length ∧
      (∀ p ∈ driver_pins, pin_field m'.fsel p = some 6) ∧
      (∀ j i, ¬ (∃ p ∈ driver_pins, j = p / 10 ∧ p % 10 * 3 ≤ i ∧ i < p % 10 * 3 + 3) →
        word_bit m'.fsel j i = word_bit [0xFFFFFFFF, 0x12345678, 0, 0xDEADBEEF] j i) ∧
      (∀ q ∈ [10, 11, 18, 19, 26, 27, 28, 29],
        pin_field m'.fsel q = pin_field [0xFFFFFFFF, 0x12345678, 0, 0xDEADBEEF] q) ∧
      (∀ j, word_bit m'.fsel j 30 = word_bit [0xFFFFFFFF, 0x12345678, 0, 0xDEADBEEF] j 30 ∧
        word_bit m'.fsel j 31 = word_bit [0xFFFFFFFF, 0x12345678, 0, 0xDEADBEEF] j 31) ∧
      (∀ j, 3 ≤ j → m'.fsel[j]? = [0xFFFFFFFF, 0x12345678, 0, 0xDEADBEEF][j]?) ∧
      (∀ a fd : Nat,
        (main (World.mk a (fd : Int) true [0xFFFFFFFF, 0x12345678, 0, 0xDEADBEEF])).map
          Outcome.fsel = some m'.fsel) :=
  driver_sequence_postcondition [0xFFFFFFFF, 0x12345678, 0, 0xDEADBEEF] []
    (by decide) (by unfold words32; decide)

/-- C14 (commutativity): for two distinct pins `p` and `q`, both with
register index below 256 and inside the bank, and function codes `f`, `g` in
0..7, `set_function(p, f)` followed by `set_function(q, g)` returns the bank
that `set_function(q, g)` followed by `set_function(p, f)` returns. Hence
for a bank of at least three words, visiting the 22 pins of the driver in
any order with code 6 gives the bank the three loops of `main` give. -/
theorem set_function_comm (fsel : List Nat) (p q f g : Nat)
    (hp : p / 10 < 256) (hpin : p / 10 < fsel.length)
    (hq : q / 10 < 256) (hqin : q / 10 < fsel.length) (hne : p ≠ q)
    (hf : f < 8) (hg : g < 8) :
    (∃ a b c : List Nat, set_function fsel (p : Int) (f : Int) = some a ∧
      set_function a (q : Int) (g : Int) = some c ∧
      set_function fsel (q : Int) (g : Int) = some b ∧
      set_function b (p : Int) (f : Int) = some c) ∧
    (∀ (bank : List Nat) (t : List Event) (ps : List Nat), 3 ≤ bank.length →
      List.Perm ps driver_pins →
      ∃ b', set_pins_bank kBCM2708Pinmux_ALT2 ps bank = some b' ∧
        (driver_sequence (Machine.mk bank t)).map Machine.fsel = some b') := by
  constructor
  · refine ⟨write_pin f fsel p, write_pin g fsel q, write_pin g (write_pin f fsel p) q,
      set_function_eq_write_pin fsel p f hp hpin hf, ?_,
      set_function_eq_write_pin fsel q g hq hqin hg, ?_⟩
    · exact set_function_eq_write_pin _ q g hq (by rw [write_pin_length]; exact hqin) hg
    · rw [write_pin_comm fsel p q f g hne hf hg hpin]
      exact set_function_eq_write_pin _ p f hp (by rw [write_pin_length]; exact hpin) hf
  · intro bank t ps h3 hperm
    have hvalid : ∀ r ∈ ps, r / 10 < 256 ∧ r / 10 < bank.length :=
      fun r hr => driver_pins_in_bank bank h3 r (hperm.mem_iff.mp hr)
    refine ⟨write_pins 6 driver_pins bank, ?_, ?_⟩
    · rw [← write_pins_perm 6 (by decide) ps driver_pins hperm bank (fun r hr => (hvalid r hr).2)]
      exact set_pins_bank_eq_write_pins 6 (by decide) ps bank hvalid
    · rw [driver_sequence_fsel, set_pins_bank_driver bank h3]

/-- Witness of C14: pins 0 and 5, which share register 0, with codes 6 and
1. -/
theorem set_function_comm_witness :
    (∃ a b c : List Nat,
      set_function [0xFFFFFFFF, 0, 0] ((0 : Nat) : Int) ((6 : Nat) : Int) = some a ∧
      set_function a ((5 : Nat) : Int) ((1 : Nat) : Int) = some c ∧
      set_function [0xFFFFFFFF, 0, 0] ((5 : Nat) : Int) ((1 : Nat) : Int) = some b ∧
      set_function b ((0 : Nat) : Int) ((6 : Nat) : Int) = some c) ∧
    (∀ (bank : List Nat) (t : List Event) (ps : List Nat), 3 ≤ bank.length →
      List.Perm ps driver_pins →
      ∃ b', set_pins_bank kBCM2708Pinmux_ALT2 ps bank = some b' ∧
        (driver_sequence (Machine.mk bank t)).map Machine.fsel = some b') :=
  set_function_comm [0xFFFFFFFF, 0, 0] 0 5 6 1
    (by decide) (by decide) (by decide) (by decide) (by decide) (by decide) (by decide)

/-- C15 (driver idempotence): for every initial bank of at least three
words, running the three loops of `main` on the bank they returned returns
that bank again; so does the successful path of `main` started on it. -/
theorem driver_sequence_idempotent (fsel : List Nat) (t : List Event)
    (h3 : 3 ≤ fsel.length) :
    ∃ m1 m2, driver_sequence (Machine.mk fsel t) = some m1 ∧
      driver_sequence m1 = some m2 ∧ m2.fsel = m1.fsel ∧
      (∀ a fd : Nat, (main (World.mk a (fd : Int) true m1.fsel)).map Outcome.fsel
        = some m1.fsel) := by
  obtain ⟨m1, hrun1, hfsel1⟩ := driver_sequence_write_pins fsel t h3
  have hin := driver_pins_lt fsel h3
  have h3' : 3 ≤ m1.fsel.length := by rw [hfsel1, write_pins_length]; exact h3
  have hagain : write_pins 6 driver_pins m1.fsel = m1.fsel := by
    rw [hfsel1]
    exact write_pins_after 6 (by decide) driver_pins driver_pins fsel (fun _ h => h) hin
  obtain ⟨m2, hrun2, hfsel2⟩ := driver_sequence_write_pins m1.fsel m1.trace h3'
  refine ⟨m1, m2, hrun1, hrun2, ?_, ?_⟩
  · rw [hfsel2, hagain]
  · intro a fd
    rw [main_fsel_write_pins a fd m1.fsel h3', hagain]

/-- Witness of C15: a three-word bank with arbitrary contents. -/
theorem driver_sequence_idempotent_witness :
    ∃ m1 m2, driver_sequence (Machine.mk [0xFFFFFFFF, 0x12345678, 0] []) = some m1 ∧
      driver_sequence m1 = some m2 ∧ m2.fsel = m1.fsel ∧
      (∀ a fd : Nat, (main (World.mk a (fd : Int) true m1.fsel)).map Outcome.fsel
        = some m1.fsel) :=
  driver_sequence_idempotent [0xFFFFFFFF, 0x12345678, 0] [] (by decide)

end HyperpixelInit
